import Mathlib

/-!
Verification of the Segment & Document Provenance Engine of `ai-organizer-vite`
(backend, `src/ai_organizer`).  Texts are modelled as `List Char`; the relational
store is modelled as explicit lists of rows; every API handler that the claims
mention is embedded as a pure function from the store to `Except ApiError` of the
new store.  Python integers are `Int` where the source can produce negative or
out-of-range values, `Nat` where the source guarantees a position into the text.
-/

namespace AiOrganizer

/-- Python `str.isspace` / regex `\s` on the characters the engine handles:
ASCII whitespace (tab..carriage return, space), the C1 separators, and the
Unicode space separators. -/
def pyIsSpace (c : Char) : Bool :=
  let n := c.toNat
  (9 ≤ n && n ≤ 13) || n = 32 || (28 ≤ n && n ≤ 31) || n = 0x85 || n = 0xA0 ||
  n = 0x1680 || (0x2000 ≤ n && n ≤ 0x200A) || n = 0x2028 || n = 0x2029 ||
  n = 0x202F || n = 0x205F || n = 0x3000

/-- Python `text[s:e]` for `0 ≤ s ≤ e` (the only shapes the engine uses). -/
def pySlice (cs : List Char) (s e : Nat) : List Char :=
  (cs.take e).drop s

/-- Python `str.strip()`. -/
def pyStrip (cs : List Char) : List Char :=
  ((cs.dropWhile pyIsSpace).reverse.dropWhile pyIsSpace).reverse

/-- First loop of `_trim_span` (segmenters.py): advance `s` while `s < e` and
`text[s]` is whitespace; the result is the first non-space index in `[s, e)`,
or `e` when the whole span is whitespace. -/
def trimStartIdx (cs : List Char) (s e : Nat) : Nat :=
  if e ≤ s then s
  else (((List.range' s (e - s)).find? (fun i => !pyIsSpace (cs.getD i ' '))).getD e)

/-- Second loop of `_trim_span`: decrease `e` while `e > s` and `text[e-1]` is
whitespace; the result is one past the last non-space index in `[s, e)`, or `s`
when the whole span is whitespace. -/
def trimEndIdx (cs : List Char) (s e : Nat) : Nat :=
  if e ≤ s then e
  else ((((List.range' s (e - s)).reverse.find?
      (fun i => !pyIsSpace (cs.getD i ' '))).map (· + 1)).getD s)

/-- `_trim_span(text, start, end)` from `ingest/segmenters.py`: trims whitespace
from both sides of the span but keeps indices into the original text.  The end
is trimmed against the already-trimmed start, exactly as the two `while` loops
run in sequence. -/
def _trim_span (cs : List Char) (s e : Nat) : Nat × Nat :=
  (trimStartIdx cs s e, trimEndIdx cs (trimStartIdx cs s e) e)

/-- Index of the first non-space character at or after `p` (absolute index), if
any.  This is the scanning primitive shared by the embeddings of the regexes in
`ingest/segmenters.py`. -/
def findNonSpaceAux : List Char → Nat → Option Nat
  | [], _ => none
  | c :: rest, i => if pyIsSpace c then findNonSpaceAux rest (i + 1) else some i

def findNonSpace (cs : List Char) (p : Nat) : Option Nat :=
  findNonSpaceAux (cs.drop p) p

/-- Largest index `j` with `q ≤ j < r` and `cs[j] = '\n'`, if any. -/
def lastNewlineBefore (cs : List Char) (q r : Nat) : Option Nat :=
  ((List.range' q (r - q)).filter (fun j => cs.getD j ' ' = '\n')).getLast?

/-! ## QA segmenter (`segment_qa`, `ROLE_RE`)

`ROLE_RE = re.compile(r"^(USER|ASSISTANT|SYSTEM|TOOL|UNKNOWN):\s*$", re.MULTILINE)`.
A match starts at a line start, consists of one of the five uppercase role words
followed by a colon, and then `\s*$`: the greedy whitespace run backtracks until
the position is end-of-string or just before a newline.  Concretely, writing `q`
for the position after the colon and `r` for the first non-space index at or
after `q`: if no non-space follows, the match ends at the end of the text, and
otherwise it ends at the last newline in `[q, r)` (no newline there means the
marker line carries inline content and the pattern does not match at all). -/

inductive Role where
  | user | assistant | system | tool | unknown
deriving DecidableEq

def roleWord : Role → List Char
  | .user => "USER".data
  | .assistant => "ASSISTANT".data
  | .system => "SYSTEM".data
  | .tool => "TOOL".data
  | .unknown => "UNKNOWN".data

/-- `m.group(1).lower()` as stored into the block dicts. -/
def roleLower : Role → List Char
  | .user => "user".data
  | .assistant => "assistant".data
  | .system => "system".data
  | .tool => "tool".data
  | .unknown => "unknown".data

def roleList : List Role := [.user, .assistant, .system, .tool, .unknown]

/-- Which role word (with its colon) starts at position `p`, if any.  The five
words are pairwise non-prefixes of each other, so at most one alternative of the
regex can fire at a given position. -/
def roleAt (cs : List Char) (p : Nat) : Option Role :=
  roleList.find? (fun r => (roleWord r ++ [':']).isPrefixOf (cs.drop p))

/-- End position of `\s*$` started at `q` (see the module comment above):
`none` means the pattern fails at this position. -/
def wsDollarEnd (cs : List Char) (q : Nat) : Option Nat :=
  match findNonSpace cs q with
  | none => some cs.length
  | some r => lastNewlineBefore cs q r

structure RMatch where
  role : Role
  mStart : Nat
  mEnd : Nat
deriving DecidableEq

/-- Try `ROLE_RE` at position `p` (which the caller guarantees is a line start). -/
def matchAt (cs : List Char) (p : Nat) : Option RMatch :=
  match roleAt cs p with
  | none => none
  | some r =>
    match wsDollarEnd cs (p + (roleWord r).length + 1) with
    | none => none
    | some e => some ⟨r, p, e⟩

/-- The line-start positions of the text, in increasing order. -/
def lineStarts (cs : List Char) : List Nat :=
  0 :: ((List.range cs.length).filter (fun i => cs.getD i ' ' = '\n')).map (· + 1)

/-- `list(ROLE_RE.finditer(text))`.  With `re.MULTILINE` the anchor `^` only
matches at line starts; a match never covers a later marker line (everything a
match consumes after its colon is whitespace), so the non-overlapping
left-to-right scan of `finditer` returns exactly the per-line-start matches. -/
def roleMatches (cs : List Char) : List RMatch :=
  (lineStarts cs).filterMap (matchAt cs)

/-- The per-match block dict built in the first loop of `segment_qa`. -/
structure QABlock where
  role : Role
  content : List Char
  blockStart : Nat
  blockEnd : Nat
  contentStart : Nat
  contentEnd : Nat
deriving DecidableEq

/-- One block dict: the block runs from the match start to `bend`, with the
content span trimmed from the region after the marker. -/
def buildBlock (cs : List Char) (m : RMatch) (bend : Nat) : QABlock :=
  { role := m.role,
    content := pySlice cs (_trim_span cs m.mEnd bend).1 (_trim_span cs m.mEnd bend).2,
    blockStart := m.mStart, blockEnd := bend,
    contentStart := (_trim_span cs m.mEnd bend).1,
    contentEnd := (_trim_span cs m.mEnd bend).2 }

/-- First loop of `segment_qa`: each match yields a block running from its own
start to the start of the next match (the last block runs to the end of the
text). -/
def buildBlocks (cs : List Char) : List RMatch → List QABlock
  | [] => []
  | m :: rest =>
    buildBlock cs m (match rest with
      | [] => cs.length
      | n :: _ => n.mStart) :: buildBlocks cs rest

/-- An output entry of either segmenter (a Python dict
`{title, content, start, end}`). -/
structure Chunk where
  title : List Char
  content : List Char
  startPos : Int
  endPos : Int
deriving DecidableEq

/-- Decimal rendering of `n`, as Python string interpolation produces it. -/
def natDigits (n : Nat) : List Char := Nat.toDigits 10 n

def qaPairChunk (b a : QABlock) (order : Nat) : Chunk :=
  { title := "Q/A #".data ++ natDigits (order + 1),
    content := pyStrip ("USER:\n".data ++ b.content ++
      "\n\nASSISTANT:\n".data ++ a.content),
    startPos := (b.blockStart : Int), endPos := (a.blockEnd : Int) }

/-- A non-paired block: `role.upper()` restores the original uppercase word. -/
def qaSingleChunk (b : QABlock) (order : Nat) : Chunk :=
  { title := "Block #".data ++ natDigits (order + 1) ++ " (".data ++
      roleLower b.role ++ ")".data,
    content := pyStrip (roleWord b.role ++ ":\n".data ++ b.content),
    startPos := (b.blockStart : Int), endPos := (b.blockEnd : Int) }

/-- Second loop of `segment_qa`: a `user` block immediately followed by an
`assistant` block is merged into one Q/A chunk; any other block becomes its own
single-role chunk. -/
def qaPairLoop : List QABlock → Nat → List Chunk
  | [], _ => []
  | [b], order => [qaSingleChunk b order]
  | b :: a :: rest, order =>
    if b.role = Role.user ∧ a.role = Role.assistant then
      qaPairChunk b a order :: qaPairLoop rest (order + 1)
    else
      qaSingleChunk b order :: qaPairLoop (a :: rest) (order + 1)

/-! ## Paragraph segmenter (`segment_paragraphs`, `PARA_RE`)

`PARA_RE = re.compile(r"\S[\s\S]*?(?=\n\s*\n+|\Z)")`.  A match begins at the
next non-space character and, being lazy, ends at the least position where the
lookahead fires: either end-of-string, or a newline whose following whitespace
run contains another newline (a blank-line boundary). -/

/-- Does the lookahead `\n\s*\n+` fire at position `e`? -/
def blankSepAt (cs : List Char) (e : Nat) : Bool :=
  cs.getD e ' ' = '\n' &&
  (lastNewlineBefore cs (e + 1) ((findNonSpace cs (e + 1)).getD cs.length)).isSome

/-- Least `j` with `e ≤ j < cs.length` and `blankSepAt cs j`, or `cs.length`:
the end of the lazy match started one position earlier. -/
def findParaEnd (cs : List Char) (e : Nat) : Nat :=
  ((List.range' e (cs.length - e)).find? (fun j => blankSepAt cs j)).getD cs.length

/-- The scan loop of `list(PARA_RE.finditer(text))`, with explicit fuel: each
iteration moves the position forward by at least one, so `cs.length` iterations
always suffice (see `paraLoop_congr`). -/
def paraLoop (cs : List Char) : Nat → Nat → List (Nat × Nat)
  | 0, _ => []
  | fuel + 1, p =>
    match findNonSpace cs p with
    | none => []
    | some s => (s, findParaEnd cs (s + 1)) :: paraLoop cs fuel (findParaEnd cs (s + 1))

/-- `[(m.start(), m.end()) for m in PARA_RE.finditer(text)]`. -/
def paraMatches (cs : List Char) : List (Nat × Nat) :=
  paraLoop cs cs.length 0

/-- Python `text.find(sub)` (`-1` when absent; at the one call site the pattern
is `text.strip()`, an infix of the text, so the search succeeds). -/
def pyFindSub (cs pat : List Char) : Int :=
  match (List.range (cs.length + 1)).find? (fun i => pat.isPrefixOf (cs.drop i)) with
  | some i => (i : Int)
  | none => -1

/-- Flushing the current group into a chunk (`segs.append({...})` in
`segment_paragraphs`): the span is trimmed and the content is the exact slice at
the trimmed span. -/
def flushChunk (cs : List Char) (segsLen : Nat) (gs ge : Nat) : Chunk :=
  { title := "Chunk #".data ++ natDigits (segsLen + 1),
    content := pySlice cs (_trim_span cs gs ge).1 (_trim_span cs gs ge).2,
    startPos := ((_trim_span cs gs ge).1 : Int),
    endPos := ((_trim_span cs gs ge).2 : Int) }

/-- The grouping loop of `segment_paragraphs`: while appending the next
paragraph keeps `pe - group_start` within budget, merge; otherwise flush and
start a new group; finally flush the open group. -/
def paraGroupLoop (cs : List Char) (maxChars : Int) :
    List (Nat × Nat) → Option (Nat × Nat) → List Chunk → List Chunk
  | [], none, acc => acc
  | [], some (gs, ge), acc => acc ++ [flushChunk cs acc.length gs ge]
  | (ps, pe) :: rest, none, acc => paraGroupLoop cs maxChars rest (some (ps, pe)) acc
  | (ps, pe) :: rest, some (gs, ge), acc =>
    if (pe : Int) - (gs : Int) ≤ maxChars then
      paraGroupLoop cs maxChars rest (some (gs, pe)) acc
    else
      paraGroupLoop cs maxChars rest (some (ps, pe))
        (acc ++ [flushChunk cs acc.length gs ge])

/-- `segment_paragraphs(text, max_chars=2500)` from `ingest/segmenters.py`. -/
def segment_paragraphs (cs : List Char) (maxChars : Int) : List Chunk :=
  match paraMatches cs with
  | [] =>
    let trimmed := pyStrip cs
    if trimmed = [] then []
    else
      let s := pyFindSub cs trimmed
      [{ title := "Chunk #1".data, content := trimmed,
         startPos := s, endPos := s + (trimmed.length : Int) }]
  | paras => paraGroupLoop cs maxChars paras none []

/-- `segment_qa(text)` from `ingest/segmenters.py`: fewer than two role matches
means no conversational structure, and the whole call delegates to
`segment_paragraphs` (with its default budget). -/
def segment_qa (cs : List Char) : List Chunk :=
  if (roleMatches cs).length < 2 then segment_paragraphs cs 2500
  else qaPairLoop (buildBlocks cs (roleMatches cs)) 0

/-! ## Data model (`models.py`)

The store is projected onto the fields the provenance engine reads and writes.
A single user is modelled (the ownership filters of the routes restrict every
query to one user's rows); timestamps are `Nat`; the P2 research columns
(`segment_type`, `evidence_grade`, `falsifiability_criteria`) are omitted — the
routes only copy them around and no claim mentions them.  The soft-delete
migration (P3) is taken as applied, so `deleted_at` exists and
`_has_p3_soft_delete_fields()` is true; the `document_versions` table presence
(`has_versioning` in `documents.py`) stays an explicit boolean parameter. -/

inductive ApiError where
  | notFoundE
  | validationE
  | badRequestE
  | internalE
deriving DecidableEq

structure Document where
  id : Nat
  title : List Char
  text : List Char
  deletedAt : Option Nat
deriving DecidableEq

structure DocumentVersion where
  documentId : Nat
  versionNumber : Int
  title : List Char
  text : List Char
deriving DecidableEq

inductive SegMode where
  | qa | paragraphs
deriving DecidableEq

structure Segment where
  id : Nat
  documentId : Nat
  mode : SegMode
  orderIndex : Int
  title : List Char
  content : List Char
  startChar : Int
  endChar : Int
  isManual : Bool
  deletedAt : Option Nat
deriving DecidableEq

structure Folder where
  id : Nat
  name : List Char
  deletedAt : Option Nat
deriving DecidableEq

structure DB where
  documents : List Document
  versions : List DocumentVersion
  segments : List Segment
  folders : List Folder
  nextSegId : Nat
deriving DecidableEq

/-- Decimal rendering of a Python int (used in default titles). -/
def intDigits (n : Int) : List Char :=
  if n < 0 then '-' :: natDigits n.natAbs else natDigits n.toNat

/-! ## Document version ledger (`api/routes/documents.py`) -/

def versionsOf (versions : List DocumentVersion) (docId : Nat) : List DocumentVersion :=
  versions.filter (fun v => decide (v.documentId = docId))

def latestStep (acc : Option DocumentVersion) (v : DocumentVersion) :
    Option DocumentVersion :=
  match acc with
  | none => some v
  | some a => if a.versionNumber < v.versionNumber then some v else some a

/-- `order_by(version_number.desc()).first()`: the row with the largest
`version_number` (unique per document by constraint). -/
def latestVersion (vs : List DocumentVersion) : Option DocumentVersion :=
  vs.foldl latestStep none

def maxIntStep (acc : Option Int) (x : Int) : Option Int :=
  match acc with
  | none => some x
  | some m => some (max m x)

def foldMaxInt (l : List Int) : Option Int := l.foldl maxIntStep none

/-- `select(func.max(DocumentVersion.version_number))` over one document. -/
def maxVersionNumber (vs : List DocumentVersion) : Option Int :=
  vs.foldl (fun acc v => maxIntStep acc v.versionNumber) none

/-- `_get_document_text_version(session, doc, version_number)`: version 0 is the
Document row itself, `None` is the latest version row falling back to the row,
and any other number is an exact lookup that raises NotFound when absent.  When
the `document_versions` table does not exist the Document row is returned for
every version argument (legacy single-version mode). -/
def _get_document_text_version (hasVersioning : Bool)
    (versions : List DocumentVersion) (doc : Document) (version : Option Int) :
    Except ApiError (List Char × List Char) :=
  match hasVersioning with
  | false => .ok (doc.title, doc.text)
  | true =>
    match version with
    | some n =>
      if n = 0 then .ok (doc.title, doc.text)
      else
        match (versionsOf versions doc.id).find? (fun v => decide (v.versionNumber = n)) with
        | some v => .ok (v.title, v.text)
        | none => .error .notFoundE
    | none =>
      match latestVersion (versionsOf versions doc.id) with
      | some v => .ok (v.title, v.text)
      | none => .ok (doc.title, doc.text)

/-- The `version=None` resolution, which never raises (used by
`patch_document` for the current values). -/
def resolveCurrent (hasVersioning : Bool) (versions : List DocumentVersion)
    (doc : Document) : List Char × List Char :=
  match _get_document_text_version hasVersioning versions doc none with
  | .ok p => p
  | .error _ => (doc.title, doc.text)

def updateDoc (docs : List Document) (docId : Nat) (f : Document → Document) :
    List Document :=
  docs.map (fun d => if d.id = docId then f d else d)

structure DocPatch where
  title : Option (List Char)
  text : Option (List Char)
deriving DecidableEq

/-- `patch_document` (`documents.py`): resolve the current title/text, default
the missing payload fields to them, and — when the version table exists — append
a `DocumentVersion` with `max(existing)+1` (or `1`) unless nothing changed; then
sync the Document row title to the latest version title ("for display
purposes").  Without the version table the Document row is mutated in place
(legacy mode).  The mid-request fallback on a database exception while inserting
the version is not modelled. -/
def patch_document (hasVersioning : Bool) (db : DB) (docId : Nat) (p : DocPatch) :
    Except ApiError DB :=
  match db.documents.find? (fun d => decide (d.id = docId ∧ d.deletedAt = none)) with
  | none => .error .notFoundE
  | some doc =>
    let cur := resolveCurrent hasVersioning db.versions doc
    let newTitle := p.title.getD cur.1
    let newText := p.text.getD cur.2
    match hasVersioning with
    | true =>
      let db1 :=
        if newTitle = cur.1 ∧ newText = cur.2 then db
        else
          let nextNum :=
            match maxVersionNumber (versionsOf db.versions doc.id) with
            | some m => m + 1
            | none => 1
          { db with versions := db.versions ++
              [{ documentId := doc.id, versionNumber := nextNum,
                 title := newTitle, text := newText }] }
      let latest := resolveCurrent hasVersioning db1.versions doc
      if latest.1 ≠ doc.title then
        .ok { db1 with documents := (updateDoc db1.documents doc.id
          (fun d => { d with title := latest.1 })) }
      else .ok db1
    | false =>
      .ok { db with documents := (updateDoc db.documents doc.id
        (fun d => { d with title := p.title.getD d.title,
                           text := p.text.getD d.text })) }

/-! ## Segment routes (`api/routes/segment.py`) -/

/-- `select(func.max(Segment.order_index))` for `(document, mode)` — over all
rows, manual or auto, tombstoned or not. -/
def maxOrderIndex (segs : List Segment) (docId : Nat) (mode : SegMode) : Option Int :=
  (segs.filter (fun s => decide (s.documentId = docId ∧ s.mode = mode))).foldl
    (fun acc s =>
      match acc with
      | none => some s.orderIndex
      | some m => some (max m s.orderIndex)) none

def updateSegById (segs : List Segment) (sid : Nat) (newSeg : Segment) : List Segment :=
  segs.map (fun t => if t.id = sid then newSeg else t)

structure ManualSegIn where
  mode : SegMode
  startPos : Int
  endPos : Int
  title : Option (List Char)
deriving DecidableEq

/-- `create_manual_segment`: validate the span against the Document row text,
store the exact (untrimmed) slice as content, and append at
`max(order_index)+1`. -/
def create_manual_segment (db : DB) (docId : Nat) (p : ManualSegIn) :
    Except ApiError DB :=
  match db.documents.find? (fun d => decide (d.id = docId)) with
  | none => .error .notFoundE
  | some doc =>
    let text := doc.text
    if p.startPos < 0 ∨ p.endPos < 0 ∨ p.startPos ≥ (text.length : Int) ∨
        p.endPos > (text.length : Int) ∨ p.endPos ≤ p.startPos then
      .error .validationE
    else
      let content := pySlice text p.startPos.toNat p.endPos.toNat
      let nextOrder := (maxOrderIndex db.segments docId p.mode).getD (-1) + 1
      let title0 := pyStrip (p.title.getD [])
      let title := if title0 = [] then "Manual #".data ++ intDigits (nextOrder + 1)
                   else title0
      .ok { db with
        segments := db.segments ++
          [{ id := db.nextSegId, documentId := docId, mode := p.mode,
             orderIndex := nextOrder, title := title, content := content,
             startChar := p.startPos, endChar := p.endPos, isManual := true,
             deletedAt := none }],
        nextSegId := db.nextSegId + 1 }

structure SegPatch where
  title : Option (List Char)
  startPos : Option Int
  endPos : Option Int
  content : Option (List Char)
deriving DecidableEq

def docAlive (db : DB) (docId : Nat) : Bool :=
  db.documents.any (fun d => decide (d.id = docId ∧ d.deletedAt = none))

/-- `patch_segment` (`segment.py`): an auto segment (`is_manual=false`) is never
mutated — the edit forks it into a fresh manual row appended at
`max(order_index)+1`; a manual segment is mutated in place.  Supplying exactly
one of start/end is a validation error; invalid spans are rejected against the
Document row text. -/
def patch_segment (db : DB) (segId : Nat) (p : SegPatch) : Except ApiError DB :=
  match db.segments.find?
      (fun s => decide (s.id = segId ∧ s.deletedAt = none) && docAlive db s.documentId) with
  | none => .error .notFoundE
  | some seg =>
    match db.documents.find?
        (fun d => decide (d.id = seg.documentId ∧ d.deletedAt = none)) with
    | none => .error .notFoundE
    | some doc =>
      if seg.isManual = false then
        let text := doc.text
        let newTitle := (p.title.map pyStrip).getD seg.title
        let fork := fun (ns ne : Int) (newContent : List Char) =>
          let nextOrder := (maxOrderIndex db.segments seg.documentId seg.mode).getD (-1) + 1
          (Except.ok { db with
            segments := db.segments ++
              [{ id := db.nextSegId, documentId := seg.documentId, mode := seg.mode,
                 orderIndex := nextOrder, title := newTitle, content := newContent,
                 startChar := ns, endChar := ne, isManual := true, deletedAt := none }],
            nextSegId := db.nextSegId + 1 } : Except ApiError DB)
        match p.startPos, p.endPos with
        | some _, none => .error .validationE
        | none, some _ => .error .validationE
        | some ns, some ne =>
          if ns < 0 ∨ ne < 0 ∨ ns ≥ (text.length : Int) ∨ ne > (text.length : Int) ∨
              ne ≤ ns then
            .error .validationE
          else
            let newContent := match p.content with
              | some c => c
              | none => pySlice text ns.toNat ne.toNat
            fork ns ne newContent
        | none, none =>
          fork seg.startChar seg.endChar (p.content.getD seg.content)
      else
        let text := doc.text
        let seg1 := match p.title with
          | some t => { seg with title := pyStrip t }
          | none => seg
        match p.startPos, p.endPos with
        | some _, none => .error .validationE
        | none, some _ => .error .validationE
        | some s0, some e0 =>
          if s0 < 0 ∨ e0 < 0 ∨ s0 ≥ (text.length : Int) ∨ e0 > (text.length : Int) ∨
              e0 ≤ s0 then
            .error .validationE
          else
            let seg2 := { seg1 with startChar := s0, endChar := e0 }
            let seg3 := if p.content = none then
                { seg2 with content := pySlice text s0.toNat e0.toNat }
              else seg2
            let seg4 := match p.content with
              | some c => { seg3 with content := c }
              | none => seg3
            .ok { db with segments := updateSegById db.segments seg.id seg4 }
        | none, none =>
          let seg4 := match p.content with
            | some c => { seg1 with content := c }
            | none => seg1
          .ok { db with segments := updateSegById db.segments seg.id seg4 }

/-! ## Reconciliation (`segment_document` in `segment.py`) -/

/-- `order_by(order_index.asc(), id.asc())`. -/
def segLE (a b : Segment) : Bool :=
  decide (a.orderIndex < b.orderIndex ∨ (a.orderIndex = b.orderIndex ∧ a.id ≤ b.id))

def insertSorted (x : Segment) : List Segment → List Segment
  | [] => [x]
  | y :: ys => if segLE x y then x :: y :: ys else y :: insertSorted x ys

def sortSegs : List Segment → List Segment
  | [] => []
  | x :: xs => insertSorted x (sortSegs xs)

/-- The auto rows of `(document, mode)` — the rows the reconciler replaces. -/
def autoPred (docId : Nat) (mode : SegMode) (s : Segment) : Bool :=
  decide (s.documentId = docId ∧ s.mode = mode ∧ s.isManual = false)

/-- The live manual rows of `(document, mode)` — the rows the reconciler keeps. -/
def manualAlive (docId : Nat) (mode : SegMode) (s : Segment) : Bool :=
  decide (s.documentId = docId ∧ s.mode = mode ∧ s.isManual = true ∧ s.deletedAt = none)

/-- One auto row written by the insert loop: content is the stripped chunk
content, offsets are clamped into `[0, len(text)]` with `end := start` when the
clamped end falls below the clamped start. -/
def mkAuto (textLen : Nat) (docId : Nat) (mode : SegMode) (ch : Chunk)
    (order : Nat) (sid : Nat) : Segment :=
  let s1 := max 0 ch.startPos
  let e1 := min (textLen : Int) ch.endPos
  { id := sid, documentId := docId, mode := mode, orderIndex := (order : Int),
    title := if ch.title = [] then "Chunk #".data ++ natDigits (order + 1) else ch.title,
    content := pyStrip ch.content, startChar := s1,
    endChar := if e1 < s1 then s1 else e1, isManual := false, deletedAt := none }

/-- The insert loop of `segment_document`: a chunk whose content strips to
empty is skipped (`continue`), every other chunk becomes an auto row at the next
`order` counter value.  The `isinstance(start, int)` internal-invariant check
cannot fire here because chunks carry integer offsets by construction.  Returns
the rows together with the final id counter and the final order counter. -/
def insertAutos (textLen : Nat) (docId : Nat) (mode : SegMode) :
    List Chunk → Nat → Nat → List Segment × Nat × Nat
  | [], sid, order => ([], sid, order)
  | ch :: rest, sid, order =>
    if pyStrip ch.content = [] then insertAutos textLen docId mode rest sid order
    else
      let r := insertAutos textLen docId mode rest (sid + 1) (order + 1)
      (mkAuto textLen docId mode ch order sid :: r.1, r.2)

def reindexOne (ids : List Nat) (base : Int) (s : Segment) : Segment :=
  match ids.findIdx? (fun i => decide (i = s.id)) with
  | some i => { s with orderIndex := base + (i : Int) }
  | none => s

/-- The manual reindex pass: `for i, s in enumerate(manual_items):
s.order_index = order + i`.  Row ids are primary keys, so updating the loaded
objects equals updating each row whose id occurs in the (duplicate-free) id
list at its list position. -/
def reindexManuals (segs : List Segment) (ids : List Nat) (base : Int) :
    List Segment :=
  segs.map (reindexOne ids base)

/-- Which segmenter the mode selects (`segment_qa` / `segment_paragraphs`). -/
def chunksFor (mode : SegMode) (text : List Char) : List Chunk :=
  match mode with
  | .qa => segment_qa text
  | .paragraphs => segment_paragraphs text 2500

/-- `segment_document` (`segment.py`), the reconcile operation: load the live
manual rows ordered by `(order_index, id)`, hard-delete every auto row of
`(document, mode)`, re-run the segmenter over the Document row text, insert the
fresh chunks as auto rows at order 0.., then reindex the loaded manual rows
after them. -/
def segment_document (db : DB) (docId : Nat) (mode : SegMode) :
    Except ApiError DB :=
  match db.documents.find? (fun d => decide (d.id = docId ∧ d.deletedAt = none)) with
  | none => .error .notFoundE
  | some doc =>
    let manualItems := sortSegs (db.segments.filter (manualAlive docId mode))
    let afterDelete := db.segments.filter (fun s => !autoPred docId mode s)
    let chunks := chunksFor mode doc.text
    let r := insertAutos doc.text.length docId mode chunks db.nextSegId 0
    .ok { db with
      segments := reindexManuals (afterDelete ++ r.1) (manualItems.map (·.id))
        (r.2.2 : Int),
      nextSegId := r.2.1 }

/-! ## Recycle bin purge (`api/routes/recycle_bin.py`)

`bad_request` (HTTP 400) realises the InvalidState rejection of the retention
design: purging an entity whose `deleted_at` is null is refused. -/

def permanently_delete_document (db : DB) (docId : Nat) : Except ApiError DB :=
  match db.documents.find? (fun d => decide (d.id = docId)) with
  | none => .error .notFoundE
  | some doc =>
    match doc.deletedAt with
    | none => .error .badRequestE
    | some _ => .ok { db with
        documents := db.documents.filter (fun d => !decide (d.id = docId)),
        versions := db.versions.filter (fun v => !decide (v.documentId = docId)),
        segments := db.segments.filter (fun s => !decide (s.documentId = docId)) }

def permanently_delete_segment (db : DB) (segId : Nat) : Except ApiError DB :=
  match db.segments.find? (fun s => decide (s.id = segId)) with
  | none => .error .notFoundE
  | some seg =>
    match seg.deletedAt with
    | none => .error .badRequestE
    | some _ => .ok { db with
        segments := db.segments.filter (fun s => !decide (s.id = segId)) }

def permanently_delete_folder (db : DB) (folderId : Nat) : Except ApiError DB :=
  match db.folders.find? (fun f => decide (f.id = folderId)) with
  | none => .error .notFoundE
  | some folder =>
    match folder.deletedAt with
    | none => .error .badRequestE
    | some _ => .ok { db with
        folders := db.folders.filter (fun f => !decide (f.id = folderId)) }

/-! ## Operation sequences

An HTTP error raises before the session commits, so a failing call leaves the
store unchanged. -/

inductive Op where
  | patchDoc (docId : Nat) (p : DocPatch)
  | segmentDoc (docId : Nat) (mode : SegMode)
  | patchSeg (segId : Nat) (p : SegPatch)

def applyOp (hv : Bool) (db : DB) : Op → DB
  | .patchDoc d p =>
    match patch_document hv db d p with
    | .ok db' => db'
    | .error _ => db
  | .segmentDoc d m =>
    match segment_document db d m with
    | .ok db' => db'
    | .error _ => db
  | .patchSeg s p =>
    match patch_segment db s p with
    | .ok db' => db'
    | .error _ => db

def applyOps (hv : Bool) (db : DB) (ops : List Op) : DB :=
  ops.foldl (applyOp hv) db

/-! ## A small concrete store (used to instantiate the theorems) -/

def wText : List Char := "USER:\nHi\nASSISTANT:\nHello".data

def wDoc : Document :=
  { id := 1, title := "doc".data, text := wText, deletedAt := none }

def wAuto : Segment :=
  { id := 1, documentId := 1, mode := .qa, orderIndex := 0, title := "old".data,
    content := "c".data, startChar := 0, endChar := 1, isManual := false,
    deletedAt := none }

def wMan : Segment :=
  { id := 2, documentId := 1, mode := .qa, orderIndex := 1, title := "m".data,
    content := "mc".data, startChar := 1, endChar := 3, isManual := true,
    deletedAt := none }

def wDB : DB :=
  { documents := [wDoc], versions := [], segments := [wAuto, wMan],
    folders := [], nextSegId := 3 }

def wDocDel : Document :=
  { id := 7, title := "gone".data, text := "x".data, deletedAt := some 5 }

def wSegDel : Segment :=
  { id := 9, documentId := 7, mode := .paragraphs, orderIndex := 0,
    title := "s".data, content := "sc".data, startChar := 0, endChar := 1,
    isManual := false, deletedAt := some 6 }

def wFolderDel : Folder := { id := 4, name := "f".data, deletedAt := some 2 }

def wDB9 : DB :=
  { documents := [wDoc, wDocDel], versions := [], segments := [wSegDel],
    folders := [wFolderDel], nextSegId := 10 }

/-- The store after a PATCH on the auto segment `wAuto` setting a title. -/
def wDBfork : DB :=
  (patch_segment wDB 1 ⟨some " x ".data, none, none, none⟩).toOption.getD wDB

/-- The store after a title patch on `wDoc` (version store present). -/
def wDBtitle : DB := applyOp true wDB (Op.patchDoc 1 ⟨some "b".data, none⟩)

/-- The store after a no-op patch on `wDoc` (version store present). -/
def wDBnoop : DB :=
  (patch_document true wDB 1 ⟨some "doc".data, some wText⟩).toOption.getD wDB

/-- The store after one reconcile of `(wDoc, qa)`. -/
def wDB1 : DB := (segment_document wDB 1 SegMode.qa).toOption.getD wDB

/-- The store after a second reconcile of `(wDoc, qa)`. -/
def wDB2 : DB := (segment_document wDB1 1 SegMode.qa).toOption.getD wDB1

/-! ## Helper lemmas: stripping and slicing -/

theorem dropWhile_head_not {p : Char → Bool} :
    ∀ {l : List Char} {c : Char} {cs : List Char},
      l.dropWhile p = c :: cs → p c = false := by
  intro l
  induction l with
  | nil => intro c cs h; simp [List.dropWhile] at h
  | cons a t ih =>
    intro c cs h
    by_cases ha : p a
    · rw [List.dropWhile_cons_of_pos ha] at h
      exact ih h
    · rw [List.dropWhile_cons_of_neg ha] at h
      cases h
      simpa using ha

theorem dropWhile_eq_self {p : Char → Bool} {l : List Char}
    (h : ∀ c, l.head? = some c → p c = false) : l.dropWhile p = l := by
  cases l with
  | nil => rfl
  | cons a t =>
    have := h a rfl
    rw [List.dropWhile_cons_of_neg (by simp [this])]

theorem pyStrip_eq_nil_iff {l : List Char} :
    pyStrip l = [] ↔ ∀ c ∈ l, pyIsSpace c = true := by
  unfold pyStrip
  constructor
  · intro h
    by_contra hx
    push_neg at hx
    obtain ⟨c, hc, hcs⟩ := hx
    have hcs' : pyIsSpace c = false := by
      cases hval : pyIsSpace c with
      | true => exact absurd hval hcs
      | false => rfl
    have h1 : l.dropWhile pyIsSpace ≠ [] := by
      rw [Ne, List.dropWhile_eq_nil_iff]
      push_neg
      exact ⟨c, hc, by simp [hcs']⟩
    have h2 : ∀ x ∈ l.dropWhile pyIsSpace, pyIsSpace x = true := by
      intro x hxm
      have h3 : (l.dropWhile pyIsSpace).reverse.dropWhile pyIsSpace = [] := by
        simpa using h
      rw [List.dropWhile_eq_nil_iff] at h3
      exact h3 x (by simpa using hxm)
    obtain ⟨c0, cs0, hc0⟩ := List.exists_cons_of_ne_nil h1
    have := dropWhile_head_not hc0
    have := h2 c0 (by rw [hc0]; exact List.mem_cons_self _ _)
    simp_all
  · intro h
    have h1 : l.dropWhile pyIsSpace = [] :=
      List.dropWhile_eq_nil_iff.mpr h
    simp [h1]

theorem pyStrip_ne_nil_of_mem {l : List Char} {c : Char}
    (hc : c ∈ l) (hcs : pyIsSpace c = false) : pyStrip l ≠ [] := by
  rw [Ne, pyStrip_eq_nil_iff]
  push_neg
  exact ⟨c, hc, by simp [hcs]⟩

theorem pyStrip_head?_not {l : List Char} {c : Char}
    (h : (pyStrip l).head? = some c) : pyIsSpace c = false := by
  unfold pyStrip at h
  rw [List.head?_reverse] at h
  obtain ⟨t, ht⟩ : (l.dropWhile pyIsSpace).reverse.dropWhile pyIsSpace <:+
      (l.dropWhile pyIsSpace).reverse := List.dropWhile_suffix _
  cases hBv : (l.dropWhile pyIsSpace).reverse.dropWhile pyIsSpace with
  | nil => rw [hBv] at h; simp at h
  | cons b bs =>
    rw [hBv] at h ht
    have hA : ((l.dropWhile pyIsSpace).reverse).getLast? = some c := by
      rw [← ht, List.getLast?_append_of_ne_nil _ (by simp : b :: bs ≠ [])]
      exact h
    rw [List.getLast?_reverse] at hA
    cases hAv : l.dropWhile pyIsSpace with
    | nil => rw [hAv] at hA; simp at hA
    | cons a as =>
      rw [hAv] at hA
      simp at hA
      subst hA
      exact dropWhile_head_not hAv

theorem pyStrip_getLast?_not {l : List Char} {c : Char}
    (h : (pyStrip l).getLast? = some c) : pyIsSpace c = false := by
  unfold pyStrip at h
  rw [List.getLast?_reverse] at h
  cases hv : (l.dropWhile pyIsSpace).reverse.dropWhile pyIsSpace with
  | nil => rw [hv] at h; simp at h
  | cons a as =>
    rw [hv] at h
    simp at h
    subst h
    exact dropWhile_head_not hv

theorem pyStrip_eq_self {l : List Char}
    (h1 : ∀ c, l.head? = some c → pyIsSpace c = false)
    (h2 : ∀ c, l.getLast? = some c → pyIsSpace c = false) :
    pyStrip l = l := by
  unfold pyStrip
  rw [dropWhile_eq_self h1]
  rw [dropWhile_eq_self (by
    intro c hc
    rw [List.head?_reverse] at hc
    exact h2 c hc)]
  exact List.reverse_reverse l

theorem pyStrip_idem (l : List Char) : pyStrip (pyStrip l) = pyStrip l :=
  pyStrip_eq_self (fun _ h => pyStrip_head?_not h) (fun _ h => pyStrip_getLast?_not h)

theorem pySlice_eq_take_drop (cs : List Char) (s e : Nat) :
    pySlice cs s e = (cs.drop s).take (e - s) := by
  unfold pySlice
  rw [List.drop_take]

theorem length_pySlice (cs : List Char) (s e : Nat) :
    (pySlice cs s e).length = min e cs.length - s := by
  unfold pySlice
  simp

theorem pySlice_head? (cs : List Char) {s e : Nat} (hse : s < e) (hs : s < cs.length) :
    (pySlice cs s e).head? = cs[s]? := by
  rw [pySlice_eq_take_drop]
  have hd : cs.drop s = cs[s] :: cs.drop (s + 1) := List.drop_eq_getElem_cons hs
  rw [hd]
  rw [show e - s = (e - s - 1) + 1 by omega, List.take_succ_cons]
  simp [List.getElem?_eq_getElem hs]

theorem pySlice_getLast? (cs : List Char) {s e : Nat} (hse : s < e)
    (he : e ≤ cs.length) : (pySlice cs s e).getLast? = cs[e - 1]? := by
  unfold pySlice
  have he1 : e - 1 < cs.length := by omega
  have htake : cs.take e = cs.take (e - 1) ++ [cs[e - 1]] := by
    conv_lhs => rw [show e = (e - 1) + 1 by omega]
    rw [List.take_succ]
    simp [List.getElem?_eq_getElem he1]
  rw [htake, List.drop_append_eq_append_drop]
  have hlen : (cs.take (e - 1)).length = e - 1 := by
    simp
    omega
  rw [hlen, show s - (e - 1) = 0 by omega]
  simp [List.getElem?_eq_getElem he1]

theorem head?_mem' {α : Type _} {l : List α} {c : α} (h : l.head? = some c) : c ∈ l := by
  cases l with
  | nil => simp at h
  | cons a t =>
    simp at h
    rw [h]
    exact List.mem_cons_self c t

/-! ## Helper lemmas: trimming and scanning -/

theorem trimStartIdx_le (cs : List Char) {s e : Nat} (hse : s ≤ e) :
    s ≤ trimStartIdx cs s e ∧ trimStartIdx cs s e ≤ e := by
  unfold trimStartIdx
  by_cases h : e ≤ s
  · rw [if_pos h]
    omega
  · rw [if_neg h]
    cases hf : (List.range' s (e - s)).find? (fun i => !pyIsSpace (cs.getD i ' ')) with
    | none => simp only [Option.getD_none]; omega
    | some i =>
      have := List.mem_of_find?_eq_some hf
      rw [List.mem_range'_1] at this
      simp only [Option.getD_some]
      omega

theorem trimStartIdx_lt_not_space (cs : List Char) {s e : Nat}
    (h : trimStartIdx cs s e < e) :
    pyIsSpace (cs.getD (trimStartIdx cs s e) ' ') = false := by
  unfold trimStartIdx at h ⊢
  by_cases he : e ≤ s
  · rw [if_pos he] at h
    omega
  · rw [if_neg he] at h ⊢
    cases hf : (List.range' s (e - s)).find? (fun i => !pyIsSpace (cs.getD i ' ')) with
    | none => rw [hf] at h; simp at h
    | some i =>
      have := List.find?_some hf
      simpa using this

theorem trimStartIdx_at_nonspace (cs : List Char) {s e : Nat} (hse : s < e)
    (h : pyIsSpace (cs.getD s ' ') = false) : trimStartIdx cs s e = s := by
  unfold trimStartIdx
  rw [if_neg (by omega : ¬ e ≤ s)]
  rw [show e - s = (e - s - 1) + 1 by omega, List.range'_succ]
  rw [List.find?_cons_of_pos _ (by rw [h]; rfl)]
  rfl

theorem trimEndIdx_bounds (cs : List Char) {s e : Nat} (hse : s ≤ e) :
    s ≤ trimEndIdx cs s e ∧ trimEndIdx cs s e ≤ e := by
  unfold trimEndIdx
  by_cases h : e ≤ s
  · rw [if_pos h]
    omega
  · rw [if_neg h]
    cases hf : (List.range' s (e - s)).reverse.find?
        (fun i => !pyIsSpace (cs.getD i ' ')) with
    | none => simp only [Option.map_none', Option.getD_none]; omega
    | some i =>
      have hm := List.mem_of_find?_eq_some hf
      rw [List.mem_reverse, List.mem_range'_1] at hm
      simp only [Option.map_some', Option.getD_some]
      omega

theorem trimEndIdx_gt_not_space (cs : List Char) {s e : Nat}
    (h : s < trimEndIdx cs s e) :
    pyIsSpace (cs.getD (trimEndIdx cs s e - 1) ' ') = false := by
  unfold trimEndIdx at h ⊢
  by_cases he : e ≤ s
  · rw [if_pos he] at h
    omega
  · rw [if_neg he] at h ⊢
    cases hf : (List.range' s (e - s)).reverse.find?
        (fun i => !pyIsSpace (cs.getD i ' ')) with
    | none =>
      rw [hf] at h
      simp at h
    | some i =>
      have := List.find?_some hf
      simp only [Option.map_some', Option.getD_some, Nat.add_sub_cancel]
      simpa using this

theorem trimEndIdx_pos_of_nonspace (cs : List Char) {s e : Nat} (hse : s < e)
    (h : pyIsSpace (cs.getD s ' ') = false) : s < trimEndIdx cs s e := by
  unfold trimEndIdx
  rw [if_neg (by omega : ¬ e ≤ s)]
  cases hf : (List.range' s (e - s)).reverse.find?
      (fun i => !pyIsSpace (cs.getD i ' ')) with
  | none =>
    rw [List.find?_eq_none] at hf
    exfalso
    have hs : s ∈ (List.range' s (e - s)).reverse := by
      rw [List.mem_reverse, List.mem_range'_1]
      omega
    have h2 := hf s hs
    rw [h] at h2
    simp at h2
  | some i =>
    have hm := List.mem_of_find?_eq_some hf
    rw [List.mem_reverse, List.mem_range'_1] at hm
    simp only [Option.map_some', Option.getD_some]
    omega

/-- Combined span facts for `_trim_span`: the trimmed span sits inside the
original one, and a nonempty trimmed span has non-space characters at both
ends. -/
theorem _trim_span_spec (cs : List Char) {s e : Nat} (hse : s ≤ e) :
    s ≤ (_trim_span cs s e).1 ∧ (_trim_span cs s e).1 ≤ (_trim_span cs s e).2 ∧
      (_trim_span cs s e).2 ≤ e ∧
      ((_trim_span cs s e).1 < (_trim_span cs s e).2 →
        pyIsSpace (cs.getD (_trim_span cs s e).1 ' ') = false ∧
        pyIsSpace (cs.getD ((_trim_span cs s e).2 - 1) ' ') = false) := by
  unfold _trim_span
  obtain ⟨h1, h2⟩ := trimStartIdx_le cs hse
  obtain ⟨h3, h4⟩ := trimEndIdx_bounds cs h2
  refine ⟨h1, h3, h4, ?_⟩
  intro hlt
  exact ⟨trimStartIdx_lt_not_space cs (by omega), trimEndIdx_gt_not_space cs hlt⟩

/-- A span starting at a non-space character trims to a nonempty span with the
same start. -/
theorem _trim_span_nonspace_start (cs : List Char) {s e : Nat} (hse : s < e)
    (h : pyIsSpace (cs.getD s ' ') = false) :
    (_trim_span cs s e).1 = s ∧ s < (_trim_span cs s e).2 := by
  unfold _trim_span
  rw [trimStartIdx_at_nonspace cs hse h]
  exact ⟨rfl, trimEndIdx_pos_of_nonspace cs hse h⟩

theorem findNonSpaceAux_spec : ∀ (l : List Char) (i s : Nat),
    findNonSpaceAux l i = some s →
    i ≤ s ∧ s - i < l.length ∧ ∃ c, l[s - i]? = some c ∧ pyIsSpace c = false := by
  intro l
  induction l with
  | nil => intro i s h; simp [findNonSpaceAux] at h
  | cons c rest ih =>
    intro i s h
    unfold findNonSpaceAux at h
    by_cases hc : pyIsSpace c
    · rw [if_pos hc] at h
      obtain ⟨h1, h2, c0, h3, h4⟩ := ih (i + 1) s h
      refine ⟨by omega, by simp; omega, c0, ?_, h4⟩
      rw [show s - i = (s - (i + 1)) + 1 by omega]
      simpa using h3
    · rw [if_neg hc] at h
      cases h
      refine ⟨le_refl _, by simp, c, ?_, by simpa using hc⟩
      simp

theorem findNonSpace_spec {cs : List Char} {p s : Nat}
    (h : findNonSpace cs p = some s) :
    p ≤ s ∧ s < cs.length ∧ pyIsSpace (cs.getD s ' ') = false := by
  unfold findNonSpace at h
  obtain ⟨h1, h2, c, h3, h4⟩ := findNonSpaceAux_spec (cs.drop p) p s h
  rw [List.getElem?_drop] at h3
  rw [List.length_drop] at h2
  have hs : s < cs.length := by omega
  have : cs[p + (s - p)]? = cs[s]? := by rw [show p + (s - p) = s by omega]
  rw [this] at h3
  refine ⟨h1, hs, ?_⟩
  rw [List.getD_eq_getElem?_getD, h3]
  simpa using h4

theorem findParaEnd_bounds (cs : List Char) {e : Nat} (he : e ≤ cs.length) :
    e ≤ findParaEnd cs e ∧ findParaEnd cs e ≤ cs.length := by
  unfold findParaEnd
  cases hf : (List.range' e (cs.length - e)).find? (fun j => blankSepAt cs j) with
  | none => simp; omega
  | some j =>
    have := List.mem_of_find?_eq_some hf
    rw [List.mem_range'_1] at this
    simp
    omega

theorem paraLoop_mem_spec (cs : List Char) :
    ∀ (fuel p : Nat), ∀ pr ∈ paraLoop cs fuel p,
      p ≤ pr.1 ∧ pr.1 < cs.length ∧
      pyIsSpace (cs.getD pr.1 ' ') = false ∧
      pr.1 + 1 ≤ pr.2 ∧ pr.2 ≤ cs.length := by
  intro fuel
  induction fuel with
  | zero => intro p pr h; simp [paraLoop] at h
  | succ n ih =>
    intro p pr h
    unfold paraLoop at h
    cases hs : findNonSpace cs p with
    | none => rw [hs] at h; simp at h
    | some s =>
      rw [hs] at h
      obtain ⟨hp, hlen, hns⟩ := findNonSpace_spec hs
      obtain ⟨hfb1, hfb2⟩ := @findParaEnd_bounds cs (s + 1) (by omega)
      rcases List.mem_cons.mp h with heq | hmem
      · subst heq
        exact ⟨hp, hlen, hns, hfb1, hfb2⟩
      · obtain ⟨h1, h2, h3, h4, h5⟩ := ih (findParaEnd cs (s + 1)) pr hmem
        exact ⟨by omega, h2, h3, h4, h5⟩

theorem paraLoop_pairwise (cs : List Char) :
    ∀ (fuel p : Nat), List.Pairwise (fun a b => a.2 ≤ b.1) (paraLoop cs fuel p) := by
  intro fuel
  induction fuel with
  | zero => intro p; simp [paraLoop]
  | succ n ih =>
    intro p
    unfold paraLoop
    cases hs : findNonSpace cs p with
    | none => simp
    | some s =>
      refine List.Pairwise.cons ?_ (ih _)
      intro pr hmem
      exact (paraLoop_mem_spec cs n (findParaEnd cs (s + 1)) pr hmem).1

/-! ## Helper lemmas: paragraph chunks -/

/-- The facts the claims need about a paragraph-segmenter chunk: its content is
the exact slice at its span, the slice is already stripped, it is nonempty, and
the span is inside the text. -/
def ChunkGood (cs : List Char) (ch : Chunk) : Prop :=
  ch.content = pySlice cs ch.startPos.toNat ch.endPos.toNat ∧
  pyStrip ch.content = ch.content ∧
  ch.content ≠ [] ∧
  0 ≤ ch.startPos ∧ ch.startPos ≤ ch.endPos ∧ ch.endPos ≤ (cs.length : Int)

theorem flushChunk_good (cs : List Char) (n : Nat) {gs ge : Nat}
    (h1 : gs < ge) (h2 : ge ≤ cs.length)
    (h3 : pyIsSpace (cs.getD gs ' ') = false) :
    ChunkGood cs (flushChunk cs n gs ge) := by
  obtain ⟨hs1, hs2⟩ := _trim_span_nonspace_start cs h1 h3
  obtain ⟨ht1, ht2, ht3, ht4⟩ := _trim_span_spec cs (le_of_lt h1)
  have hlt : (_trim_span cs gs ge).1 < (_trim_span cs gs ge).2 := by omega
  have hple : (_trim_span cs gs ge).2 ≤ cs.length := by omega
  have hp1len : (_trim_span cs gs ge).1 < cs.length := by omega
  obtain ⟨hns1, hns2⟩ := ht4 hlt
  have hgd1 : pyIsSpace cs[(_trim_span cs gs ge).1] = false := by
    rw [List.getD_eq_getElem?_getD, List.getElem?_eq_getElem hp1len] at hns1
    simpa using hns1
  have hgd2 : pyIsSpace cs[(_trim_span cs gs ge).2 - 1] = false := by
    rw [List.getD_eq_getElem?_getD,
      List.getElem?_eq_getElem (show (_trim_span cs gs ge).2 - 1 < cs.length by omega)] at hns2
    simpa using hns2
  unfold ChunkGood flushChunk
  refine ⟨?_, ?_, ?_, ?_, ?_, ?_⟩
  · dsimp only
    simp
  · dsimp only
    refine pyStrip_eq_self ?_ ?_
    · intro c hc
      rw [pySlice_head? cs hlt hp1len, List.getElem?_eq_getElem hp1len] at hc
      cases hc
      exact hgd1
    · intro c hc
      rw [pySlice_getLast? cs hlt hple, List.getElem?_eq_getElem
        (show (_trim_span cs gs ge).2 - 1 < cs.length by omega)] at hc
      cases hc
      exact hgd2
  · dsimp only
    intro hnil
    have hlen := length_pySlice cs (_trim_span cs gs ge).1 (_trim_span cs gs ge).2
    rw [hnil] at hlen
    simp at hlen
    omega
  · dsimp only
    exact Int.ofNat_nonneg _
  · dsimp only
    exact_mod_cast le_of_lt hlt
  · dsimp only
    exact_mod_cast hple

theorem paraGroupLoop_good (cs : List Char) (mc : Int) :
    ∀ (paras : List (Nat × Nat)) (g : Option (Nat × Nat)) (acc : List Chunk),
      (∀ pr ∈ paras, pr.1 < cs.length ∧ pyIsSpace (cs.getD pr.1 ' ') = false ∧
          pr.1 + 1 ≤ pr.2 ∧ pr.2 ≤ cs.length) →
      List.Pairwise (fun a b => a.2 ≤ b.1) paras →
      (∀ gs ge, g = some (gs, ge) →
        gs < ge ∧ ge ≤ cs.length ∧ pyIsSpace (cs.getD gs ' ') = false ∧
        ∀ pr ∈ paras, gs ≤ pr.1) →
      (∀ ch ∈ acc, ChunkGood cs ch) →
      ∀ ch ∈ paraGroupLoop cs mc paras g acc, ChunkGood cs ch := by
  intro paras
  induction paras with
  | nil =>
    intro g acc _ _ hg hacc ch hch
    cases g with
    | none => exact hacc ch hch
    | some pr =>
      obtain ⟨gs, ge⟩ := pr
      obtain ⟨hg1, hg2, hg3, _⟩ := hg gs ge rfl
      unfold paraGroupLoop at hch
      rcases List.mem_append.mp hch with hin | hin
      · exact hacc ch hin
      · rw [List.mem_singleton] at hin
        subst hin
        exact flushChunk_good cs acc.length hg1 hg2 hg3
  | cons hd tl ih =>
    intro g acc hp hpw hg hacc ch hch
    obtain ⟨ps, pe⟩ := hd
    obtain ⟨hp1, hp2, hp3, hp4⟩ := hp (ps, pe) (List.mem_cons_self _ _)
    have hptl : ∀ pr ∈ tl, pr.1 < cs.length ∧ pyIsSpace (cs.getD pr.1 ' ') = false ∧
        pr.1 + 1 ≤ pr.2 ∧ pr.2 ≤ cs.length :=
      fun pr hpr => hp pr (List.mem_cons_of_mem _ hpr)
    have hpwhd : ∀ pr ∈ tl, (ps, pe).2 ≤ pr.1 :=
      fun pr hpr => List.rel_of_pairwise_cons hpw hpr
    have hpwtl := List.Pairwise.of_cons hpw
    cases g with
    | none =>
      unfold paraGroupLoop at hch
      refine ih (some (ps, pe)) acc hptl hpwtl ?_ hacc ch hch
      intro gs ge heq
      cases heq
      refine ⟨by omega, hp4, hp2, ?_⟩
      intro pr hpr
      have := hpwhd pr hpr
      omega
    | some pr2 =>
      obtain ⟨gs, ge⟩ := pr2
      obtain ⟨hg1, hg2, hg3, hg4⟩ := hg gs ge rfl
      have hgs_ps : gs ≤ ps := hg4 (ps, pe) (List.mem_cons_self _ _)
      unfold paraGroupLoop at hch
      by_cases hbud : (pe : Int) - (gs : Int) ≤ mc
      · rw [if_pos hbud] at hch
        refine ih (some (gs, pe)) acc hptl hpwtl ?_ hacc ch hch
        intro gs' ge' heq
        cases heq
        refine ⟨by omega, hp4, hg3, ?_⟩
        intro pr hpr
        exact hg4 pr (List.mem_cons_of_mem _ hpr)
      · rw [if_neg hbud] at hch
        refine ih (some (ps, pe)) (acc ++ [flushChunk cs acc.length gs ge])
          hptl hpwtl ?_ ?_ ch hch
        · intro gs' ge' heq
          cases heq
          refine ⟨by omega, hp4, hp2, ?_⟩
          intro pr hpr
          have := hpwhd pr hpr
          omega
        · intro c hc
          rcases List.mem_append.mp hc with hin | hin
          · exact hacc c hin
          · rw [List.mem_singleton] at hin
            subst hin
            exact flushChunk_good cs acc.length hg1 hg2 hg3

theorem segment_paragraphs_good (cs : List Char) (mc : Int) :
    ∀ ch ∈ segment_paragraphs cs mc, ChunkGood cs ch := by
  intro ch hch
  unfold segment_paragraphs at hch
  cases hp : paraMatches cs with
  | nil =>
    rw [hp] at hch
    by_cases ht : pyStrip cs = []
    · rw [if_pos ht] at hch
      simp at hch
    · rw [if_neg ht] at hch
      rw [List.mem_singleton] at hch
      subst hch
      -- the fallback single chunk: text.find locates the stripped text
      have hinf : pyStrip cs <+: cs.dropWhile pyIsSpace := by
        unfold pyStrip
        refine List.IsPrefix.trans ?_ (List.prefix_refl _)
        obtain ⟨t, htt⟩ : (cs.dropWhile pyIsSpace).reverse.dropWhile pyIsSpace <:+
            (cs.dropWhile pyIsSpace).reverse := List.dropWhile_suffix _
        refine ⟨t.reverse, ?_⟩
        rw [← List.reverse_append, htt, List.reverse_reverse]
      have hinf2 : pyStrip cs <:+: cs :=
        List.IsPrefix.isInfix hinf |>.trans (List.dropWhile_suffix pyIsSpace).isInfix
      obtain ⟨u, v, huv⟩ := hinf2
      have hity : (pyStrip cs).isPrefixOf (cs.drop u.length) = true := by
        rw [List.isPrefixOf_iff_prefix]
        refine ⟨v, ?_⟩
        conv_rhs => rw [← huv]
        simp only [List.append_assoc]
        rw [List.drop_left]
      have hulen : u.length + (pyStrip cs).length ≤ cs.length := by
        have := congrArg List.length huv
        simp at this
        omega
      cases hfind : (List.range (cs.length + 1)).find?
          (fun i => (pyStrip cs).isPrefixOf (cs.drop i)) with
      | none =>
        exfalso
        rw [List.find?_eq_none] at hfind
        exact hfind u.length (by rw [List.mem_range]; omega) hity
      | some i =>
        have hipre := List.find?_some hfind
        have himem := List.mem_of_find?_eq_some hfind
        rw [List.mem_range] at himem
        rw [List.isPrefixOf_iff_prefix] at hipre
        have htake : pyStrip cs = (cs.drop i).take (pyStrip cs).length := by
          rw [← List.prefix_iff_eq_take.mp hipre]
        have hilen : i + (pyStrip cs).length ≤ cs.length := by
          have h1 : (pyStrip cs).length ≤ (cs.drop i).length :=
            List.IsPrefix.length_le hipre
          rw [List.length_drop] at h1
          omega
        have hfs : pyFindSub cs (pyStrip cs) = (i : Int) := by
          unfold pyFindSub
          rw [hfind]
        constructor
        · show pyStrip cs = pySlice cs (pyFindSub cs (pyStrip cs)).toNat
            ((pyFindSub cs (pyStrip cs)) + ((pyStrip cs).length : Int)).toNat
          rw [hfs, pySlice_eq_take_drop]
          rw [show ((i : Int) + ((pyStrip cs).length : Int)).toNat =
              i + (pyStrip cs).length by omega]
          rw [show ((i : Int)).toNat = i by omega]
          rw [show i + (pyStrip cs).length - i = (pyStrip cs).length by omega]
          exact htake
        refine ⟨pyStrip_idem cs, ht, ?_, ?_, ?_⟩
        · show (0 : Int) ≤ pyFindSub cs (pyStrip cs)
          rw [hfs]
          exact Int.ofNat_nonneg _
        · show pyFindSub cs (pyStrip cs) ≤
            pyFindSub cs (pyStrip cs) + ((pyStrip cs).length : Int)
          omega
        · show pyFindSub cs (pyStrip cs) + ((pyStrip cs).length : Int) ≤
            (cs.length : Int)
          rw [hfs]
          omega
  | cons p ps =>
    rw [hp] at hch
    refine paraGroupLoop_good cs mc (p :: ps) none [] ?_ ?_ ?_ ?_ ch hch
    · intro pr hpr
      rw [← hp] at hpr
      obtain ⟨_, h2, h3, h4, h5⟩ := paraLoop_mem_spec cs cs.length 0 pr hpr
      exact ⟨h2, h3, h4, h5⟩
    · rw [← hp]
      exact paraLoop_pairwise cs cs.length 0
    · intro gs ge heq
      cases heq
    · intro c hc
      simp at hc

/-! ## Helper lemmas: QA chunks -/

theorem roleWord_ne_nil (r : Role) : roleWord r ≠ [] := by
  cases r <;> simp [roleWord]

theorem roleWord_head_nonspace (r : Role) :
    ∀ c, (roleWord r).head? = some c → pyIsSpace c = false := by
  cases r <;> (intro c hc; simp [roleWord] at hc; subst hc; rfl)

theorem roleMatches_mem_spec (cs : List Char) :
    ∀ m ∈ roleMatches cs,
      (roleWord m.role ++ [':']).isPrefixOf (cs.drop m.mStart) = true ∧
      m.mStart ∈ lineStarts cs ∧ m.mStart < cs.length := by
  intro m hm
  unfold roleMatches at hm
  obtain ⟨p, hp, hmp⟩ := List.mem_filterMap.mp hm
  unfold matchAt at hmp
  cases hr : roleAt cs p with
  | none => rw [hr] at hmp; simp at hmp
  | some r =>
    rw [hr] at hmp
    dsimp only at hmp
    cases hw : wsDollarEnd cs (p + (roleWord r).length + 1) with
    | none => rw [hw] at hmp; simp at hmp
    | some e =>
      rw [hw] at hmp
      dsimp only at hmp
      rw [Option.some.injEq] at hmp
      have hpre := List.find?_some hr
      subst hmp
      refine ⟨hpre, hp, ?_⟩
      by_contra hlen
      push_neg at hlen
      rw [List.drop_eq_nil_of_le hlen] at hpre
      rw [List.isPrefixOf_iff_prefix, List.prefix_nil] at hpre
      exact (by simp [roleWord_ne_nil] : roleWord r ++ [':'] ≠ []) hpre

theorem buildBlocks_blockStart (cs : List Char) :
    ∀ ms : List RMatch,
      (buildBlocks cs ms).map (fun b => b.blockStart) = ms.map (fun m => m.mStart) := by
  intro ms
  induction ms with
  | nil => rfl
  | cons m rest ih =>
    unfold buildBlocks
    simp only [List.map_cons]
    rw [ih]
    rfl

theorem roleWord_head_strip_ne (r : Role) (suf : List Char) :
    pyStrip (roleWord r ++ suf) ≠ [] := by
  cases hr : (roleWord r).head? with
  | none =>
    exact absurd (List.head?_eq_none_iff.mp hr) (roleWord_ne_nil r)
  | some c =>
    exact pyStrip_ne_nil_of_mem
      (List.mem_append_left _ (head?_mem' hr))
      (roleWord_head_nonspace r c hr)

theorem qaPairChunk_strip_ne (b a : QABlock) (ord : Nat) :
    pyStrip (qaPairChunk b a ord).content ≠ [] := by
  unfold qaPairChunk
  dsimp only
  rw [pyStrip_idem]
  refine @pyStrip_ne_nil_of_mem _ 'U' ?_ (by decide)
  exact List.mem_append_left _ (List.mem_append_left _
    (List.mem_append_left _ (by decide : 'U' ∈ "USER:\n".data)))

theorem qaSingleChunk_strip_ne (b : QABlock) (ord : Nat) :
    pyStrip (qaSingleChunk b ord).content ≠ [] := by
  unfold qaSingleChunk
  dsimp only
  rw [pyStrip_idem, List.append_assoc]
  exact roleWord_head_strip_ne b.role _

theorem qaPairLoop_mem_spec :
    ∀ (blocks : List QABlock) (ord : Nat), ∀ ch ∈ qaPairLoop blocks ord,
      (∃ b ∈ blocks, ch.startPos = (b.blockStart : Int)) ∧
      pyStrip ch.content ≠ [] := by
  intro blocks ord
  induction blocks, ord using qaPairLoop.induct with
  | case1 ord =>
    intro ch hch
    simp [qaPairLoop] at hch
  | case2 b ord =>
    intro ch hch
    unfold qaPairLoop at hch
    rw [List.mem_singleton] at hch
    subst hch
    exact ⟨⟨b, List.mem_singleton.mpr rfl, rfl⟩, qaSingleChunk_strip_ne b ord⟩
  | case3 b a rest ord hcond ih =>
    intro ch hch
    unfold qaPairLoop at hch
    rw [if_pos hcond] at hch
    rcases List.mem_cons.mp hch with heq | hmem
    · subst heq
      exact ⟨⟨b, List.mem_cons_self _ _, rfl⟩, qaPairChunk_strip_ne b a ord⟩
    · obtain ⟨⟨b', hb', he⟩, hs⟩ := ih ch hmem
      exact ⟨⟨b', List.mem_cons_of_mem _ (List.mem_cons_of_mem _ hb'), he⟩, hs⟩
  | case4 b a rest ord hcond ih =>
    intro ch hch
    unfold qaPairLoop at hch
    rw [if_neg hcond] at hch
    rcases List.mem_cons.mp hch with heq | hmem
    · subst heq
      exact ⟨⟨b, List.mem_cons_self _ _, rfl⟩, qaSingleChunk_strip_ne b ord⟩
    · obtain ⟨⟨b', hb', he⟩, hs⟩ := ih ch hmem
      exact ⟨⟨b', List.mem_cons_of_mem _ hb', he⟩, hs⟩

theorem segment_qa_chunk_facts (cs : List Char) :
    ∀ ch ∈ segment_qa cs,
      pyStrip ch.content ≠ [] ∧ ch.startPos ≤ (cs.length : Int) ∧ 0 ≤ ch.startPos := by
  intro ch hch
  unfold segment_qa at hch
  by_cases hn : (roleMatches cs).length < 2
  · rw [if_pos hn] at hch
    obtain ⟨h1, h2, h3, h4, h5, h6⟩ := segment_paragraphs_good cs 2500 ch hch
    exact ⟨by rw [h2]; exact h3, le_trans h5 h6, h4⟩
  · rw [if_neg hn] at hch
    obtain ⟨⟨b, hb, he⟩, hs⟩ := qaPairLoop_mem_spec _ 0 ch hch
    refine ⟨hs, ?_, ?_⟩
    · rw [he]
      have hmem : b.blockStart ∈
          (buildBlocks cs (roleMatches cs)).map (fun b => b.blockStart) :=
        List.mem_map_of_mem _ hb
      rw [buildBlocks_blockStart] at hmem
      obtain ⟨m, hm, hmeq⟩ := List.mem_map.mp hmem
      have hlt := (roleMatches_mem_spec cs m hm).2.2
      exact_mod_cast le_of_lt (hmeq ▸ hlt)
    · rw [he]
      exact Int.ofNat_nonneg _

theorem chunksFor_strip_ne_nil (mode : SegMode) (cs : List Char) :
    ∀ ch ∈ chunksFor mode cs, pyStrip ch.content ≠ [] := by
  intro ch hch
  cases mode with
  | qa => exact (segment_qa_chunk_facts cs ch hch).1
  | paragraphs =>
    obtain ⟨_, h2, h3, _⟩ := segment_paragraphs_good cs 2500 ch hch
    rw [h2]
    exact h3

theorem chunksFor_start_facts (mode : SegMode) (cs : List Char) :
    ∀ ch ∈ chunksFor mode cs, 0 ≤ ch.startPos ∧ ch.startPos ≤ (cs.length : Int) := by
  intro ch hch
  cases mode with
  | qa =>
    obtain ⟨_, h2, h3⟩ := segment_qa_chunk_facts cs ch hch
    exact ⟨h3, h2⟩
  | paragraphs =>
    obtain ⟨_, _, _, h4, h5, h6⟩ := segment_paragraphs_good cs 2500 ch hch
    exact ⟨h4, le_trans h5 h6⟩

/-! ## Helper lemmas: the reconcile insert loop, reindexing, sorting -/

theorem enumFrom_succ_map {α β : Type _} (f : Nat × α → β) :
    ∀ (l : List α) (n : Nat),
      (l.enumFrom (n + 1)).map f = (l.enumFrom n).map (fun pr => f (pr.1 + 1, pr.2)) := by
  intro l
  induction l with
  | nil => intro n; rfl
  | cons a t ih =>
    intro n
    rw [List.enumFrom_cons, List.enumFrom_cons]
    simp only [List.map_cons]
    rw [ih (n + 1)]

theorem insertAutos_nonempty_spec (L d : Nat) (m : SegMode) :
    ∀ (chunks : List Chunk) (sid ord : Nat),
      (∀ ch ∈ chunks, pyStrip ch.content ≠ []) →
      (insertAutos L d m chunks sid ord).1 =
        chunks.enum.map (fun pr => mkAuto L d m pr.2 (ord + pr.1) (sid + pr.1)) ∧
      (insertAutos L d m chunks sid ord).2.1 = sid + chunks.length ∧
      (insertAutos L d m chunks sid ord).2.2 = ord + chunks.length := by
  intro chunks
  induction chunks with
  | nil => intro sid ord _; simp [insertAutos]
  | cons ch rest ih =>
    intro sid ord hne
    have hch := hne ch (List.mem_cons_self _ _)
    have hrest : ∀ c ∈ rest, pyStrip c.content ≠ [] :=
      fun c hc => hne c (List.mem_cons_of_mem _ hc)
    obtain ⟨ih1, ih2, ih3⟩ := ih (sid + 1) (ord + 1) hrest
    unfold insertAutos
    rw [if_neg hch]
    refine ⟨?_, by rw [ih2, List.length_cons]; omega,
      by rw [ih3, List.length_cons]; omega⟩
    dsimp only
    rw [ih1, List.enum_cons, List.map_cons]
    rw [enumFrom_succ_map]
    refine congrArg₂ _ (by simp) ?_
    show _ = (rest.enumFrom 0).map _
    refine List.map_congr_left ?_
    intro pr _
    dsimp only
    rw [show ord + (pr.1 + 1) = ord + 1 + pr.1 by omega,
      show sid + (pr.1 + 1) = sid + 1 + pr.1 by omega]

theorem insertAutos_mem_spec (L d : Nat) (m : SegMode) :
    ∀ (chunks : List Chunk) (sid ord : Nat),
      ∀ s ∈ (insertAutos L d m chunks sid ord).1,
        ∃ ch ∈ chunks, ∃ o i, s = mkAuto L d m ch o i ∧ sid ≤ i := by
  intro chunks
  induction chunks with
  | nil => intro sid ord s hs; simp [insertAutos] at hs
  | cons ch rest ih =>
    intro sid ord s hs
    unfold insertAutos at hs
    by_cases hne : pyStrip ch.content = []
    · rw [if_pos hne] at hs
      obtain ⟨c, hc, o, i, heq, hi⟩ := ih sid ord s hs
      exact ⟨c, List.mem_cons_of_mem _ hc, o, i, heq, hi⟩
    · rw [if_neg hne] at hs
      rcases List.mem_cons.mp hs with heq | hmem
      · exact ⟨ch, List.mem_cons_self _ _, ord, sid, heq, le_refl _⟩
      · obtain ⟨c, hc, o, i, heq, hi⟩ := ih (sid + 1) (ord + 1) s hmem
        exact ⟨c, List.mem_cons_of_mem _ hc, o, i, heq, by omega⟩

theorem insertAutos_length (L d : Nat) (m : SegMode) :
    ∀ (chunks : List Chunk) (sid ord : Nat),
      (insertAutos L d m chunks sid ord).1.length =
        (chunks.filter (fun ch => !decide (pyStrip ch.content = []))).length := by
  intro chunks
  induction chunks with
  | nil => intro sid ord; simp [insertAutos]
  | cons ch rest ih =>
    intro sid ord
    unfold insertAutos
    by_cases hne : pyStrip ch.content = []
    · rw [if_pos hne]
      rw [List.filter_cons_of_neg (by simp [hne])]
      exact ih sid ord
    · rw [if_neg hne]
      rw [List.filter_cons_of_pos (by simp [hne])]
      dsimp only
      rw [List.length_cons, List.length_cons, ih (sid + 1) (ord + 1)]

theorem insertAutos_id_range (L d : Nat) (m : SegMode) :
    ∀ (chunks : List Chunk) (sid ord : Nat),
      sid ≤ (insertAutos L d m chunks sid ord).2.1 ∧
      ∀ s ∈ (insertAutos L d m chunks sid ord).1,
        sid ≤ s.id ∧ s.id < (insertAutos L d m chunks sid ord).2.1 := by
  intro chunks
  induction chunks with
  | nil => intro sid ord; refine ⟨le_refl _, ?_⟩; intro s hs; simp [insertAutos] at hs
  | cons ch rest ih =>
    intro sid ord
    unfold insertAutos
    by_cases hne : pyStrip ch.content = []
    · rw [if_pos hne]
      exact ih sid ord
    · rw [if_neg hne]
      obtain ⟨ihn, ihm⟩ := ih (sid + 1) (ord + 1)
      dsimp only
      refine ⟨by omega, ?_⟩
      intro s hs
      rcases List.mem_cons.mp hs with heq | hmem
      · subst heq
        unfold mkAuto
        dsimp only
        omega
      · have := ihm s hmem
        omega

theorem mkAuto_fields (L d : Nat) (m : SegMode) (ch : Chunk) (o i : Nat) :
    (mkAuto L d m ch o i).documentId = d ∧ (mkAuto L d m ch o i).mode = m ∧
    (mkAuto L d m ch o i).isManual = false ∧ (mkAuto L d m ch o i).deletedAt = none ∧
    (mkAuto L d m ch o i).id = i ∧ (mkAuto L d m ch o i).orderIndex = (o : Int) ∧
    (mkAuto L d m ch o i).content = pyStrip ch.content := by
  unfold mkAuto
  refine ⟨rfl, rfl, rfl, rfl, rfl, rfl, rfl⟩

theorem reindexOne_fields (ids : List Nat) (base : Int) (s : Segment) :
    (reindexOne ids base s).id = s.id ∧
    (reindexOne ids base s).documentId = s.documentId ∧
    (reindexOne ids base s).mode = s.mode ∧
    (reindexOne ids base s).title = s.title ∧
    (reindexOne ids base s).content = s.content ∧
    (reindexOne ids base s).startChar = s.startChar ∧
    (reindexOne ids base s).endChar = s.endChar ∧
    (reindexOne ids base s).isManual = s.isManual ∧
    (reindexOne ids base s).deletedAt = s.deletedAt := by
  unfold reindexOne
  cases ids.findIdx? (fun i => decide (i = s.id)) with
  | none => exact ⟨rfl, rfl, rfl, rfl, rfl, rfl, rfl, rfl, rfl⟩
  | some i => exact ⟨rfl, rfl, rfl, rfl, rfl, rfl, rfl, rfl, rfl⟩

theorem reindexOne_not_mem (ids : List Nat) (base : Int) (s : Segment)
    (h : s.id ∉ ids) : reindexOne ids base s = s := by
  unfold reindexOne
  have : ids.findIdx? (fun i => decide (i = s.id)) = none := by
    rw [List.findIdx?_eq_none_iff]
    intro x hx
    simp only [decide_eq_false_iff_not]
    intro heq
    exact h (heq ▸ hx)
  rw [this]

theorem findIdx?_nodup_getElem {ids : List Nat} (hnd : ids.Nodup) :
    ∀ {j : Nat} {x : Nat}, ids[j]? = some x →
      ids.findIdx? (fun i => decide (i = x)) = some j := by
  induction ids with
  | nil => intro j x h; simp at h
  | cons a t ih =>
    intro j x h
    cases j with
    | zero =>
      simp at h
      subst h
      rw [List.findIdx?_cons]
      simp
    | succ n =>
      simp at h
      have hx : x ∈ t := by
        rw [List.mem_iff_getElem?]
        exact ⟨n, h⟩
      have hax : ¬ (a = x) := by
        intro heq
        subst heq
        exact (List.nodup_cons.mp hnd).1 hx
      rw [List.findIdx?_cons]
      rw [if_neg (by simpa using hax)]
      rw [List.findIdx?_succ, ih (List.nodup_cons.mp hnd).2 h]
      rfl

theorem reindexOne_at_getElem {ids : List Nat} (hnd : ids.Nodup) (base : Int)
    {j : Nat} {s : Segment} (h : ids[j]? = some s.id) :
    reindexOne ids base s = { s with orderIndex := base + (j : Int) } := by
  unfold reindexOne
  rw [findIdx?_nodup_getElem hnd h]

theorem find?_map_id_unique :
    ∀ (l : List Segment), (l.map Segment.id).Nodup →
      ∀ (g : Segment → Segment), (∀ t, (g t).id = t.id) →
      ∀ s ∈ l, (l.map g).find? (fun t => decide (t.id = s.id)) = some (g s) := by
  intro l
  induction l with
  | nil => intro _ g _ s hs; simp at hs
  | cons h t ih =>
    intro hnd g hg s hs
    rw [List.map_cons]
    by_cases hid : h.id = s.id
    · have hsh : s = h := by
        rcases List.mem_cons.mp hs with heq | hmem
        · exact heq
        · exfalso
          have hsm : s.id ∈ t.map Segment.id := List.mem_map_of_mem _ hmem
          rw [← hid] at hsm
          exact (List.nodup_cons.mp (by simpa using hnd)).1 hsm
      subst hsh
      rw [List.find?_cons_of_pos _ (by simp [hg])]
    · rw [List.find?_cons_of_neg _ (by simp [hg, hid])]
      have hmem : s ∈ t := by
        rcases List.mem_cons.mp hs with heq | hmem
        · exact absurd (heq ▸ rfl) hid
        · exact hmem
      exact ih (by simpa using (List.nodup_cons.mp (by simpa using hnd)).2) g hg s hmem

theorem insertSorted_perm (x : Segment) :
    ∀ l : List Segment, (insertSorted x l).Perm (x :: l) := by
  intro l
  induction l with
  | nil => simp [insertSorted]
  | cons y ys ih =>
    unfold insertSorted
    by_cases h : segLE x y
    · rw [if_pos h]
    · rw [if_neg h]
      exact (List.Perm.cons y ih).trans (List.Perm.swap x y ys)

theorem sortSegs_perm : ∀ l : List Segment, (sortSegs l).Perm l := by
  intro l
  induction l with
  | nil => simp [sortSegs]
  | cons x xs ih =>
    unfold sortSegs
    exact (insertSorted_perm x (sortSegs xs)).trans (List.Perm.cons x ih)

theorem foldMaxInt_range (N : Nat) :
    foldMaxInt ((List.range' 1 N).map Int.ofNat) =
      if N = 0 then none else some (N : Int) := by
  induction N with
  | zero => simp [foldMaxInt]
  | succ n ih =>
    rw [List.range'_concat, List.map_append]
    unfold foldMaxInt at ih ⊢
    rw [List.foldl_append, ih]
    simp only [List.map_cons, List.map_nil, List.foldl_cons, List.foldl_nil]
    by_cases hn : n = 0
    · subst hn
      simp [maxIntStep]
    · rw [if_neg hn, if_neg (by omega)]
      unfold maxIntStep
      dsimp only
      rw [Option.some.injEq]
      simp only [Int.ofNat_eq_coe]
      push_cast
      omega

theorem maxVersionNumber_eq_foldMaxInt (vs : List DocumentVersion) :
    maxVersionNumber vs = foldMaxInt (vs.map (fun v => v.versionNumber)) := by
  unfold maxVersionNumber foldMaxInt
  rw [List.foldl_map]

theorem latestVersion_go :
    ∀ (vs : List DocumentVersion) (a : DocumentVersion),
      ∃ v, vs.foldl latestStep (some a) = some v ∧ (v = a ∨ v ∈ vs) ∧
        a.versionNumber ≤ v.versionNumber ∧
        ∀ w ∈ vs, w.versionNumber ≤ v.versionNumber := by
  intro vs
  induction vs with
  | nil => intro a; exact ⟨a, rfl, Or.inl rfl, le_refl _, by simp⟩
  | cons b t ih =>
    intro a
    rw [List.foldl_cons]
    rw [show latestStep (some a) b =
      if a.versionNumber < b.versionNumber then some b else some a from rfl]
    by_cases hab : a.versionNumber < b.versionNumber
    · rw [if_pos hab]
      obtain ⟨v, h1, h2, h3, h4⟩ := ih b
      refine ⟨v, h1, ?_, by omega, ?_⟩
      · rcases h2 with heq | hmem
        · exact Or.inr (heq ▸ List.mem_cons_self _ _)
        · exact Or.inr (List.mem_cons_of_mem _ hmem)
      · intro w hw
        rcases List.mem_cons.mp hw with heq | hmem
        · subst heq; exact h3
        · exact h4 w hmem
    · rw [if_neg hab]
      obtain ⟨v, h1, h2, h3, h4⟩ := ih a
      refine ⟨v, h1, ?_, h3, ?_⟩
      · rcases h2 with heq | hmem
        · exact Or.inl heq
        · exact Or.inr (List.mem_cons_of_mem _ hmem)
      · intro w hw
        rcases List.mem_cons.mp hw with heq | hmem
        · subst heq; omega
        · exact h4 w hmem

theorem latestVersion_spec {vs : List DocumentVersion} {v : DocumentVersion}
    (h : latestVersion vs = some v) :
    v ∈ vs ∧ ∀ w ∈ vs, w.versionNumber ≤ v.versionNumber := by
  cases vs with
  | nil => simp [latestVersion] at h
  | cons b t =>
    unfold latestVersion at h
    rw [List.foldl_cons] at h
    have hstep : latestStep none b = some b := rfl
    rw [hstep] at h
    obtain ⟨v', h1, h2, h3, h4⟩ := latestVersion_go t b
    rw [h1] at h
    cases h
    refine ⟨?_, ?_⟩
    · rcases h2 with heq | hmem
      · exact heq ▸ List.mem_cons_self _ _
      · exact List.mem_cons_of_mem _ hmem
    · intro w hw
      rcases List.mem_cons.mp hw with heq | hmem
      · subst heq; exact h3
      · exact h4 w hmem

theorem latestVersion_isSome {vs : List DocumentVersion} (h : vs ≠ []) :
    ∃ v, latestVersion vs = some v := by
  cases vs with
  | nil => exact absurd rfl h
  | cons b t =>
    unfold latestVersion
    rw [List.foldl_cons]
    have hstep : latestStep none b = some b := rfl
    rw [hstep]
    obtain ⟨v, h1, _⟩ := latestVersion_go t b
    exact ⟨v, h1⟩

/-! ## Helper lemmas: anatomy of a successful reconcile -/

/-- The auto rows of `(document, mode)` currently in the store. -/
def autosOf (db : DB) (docId : Nat) (mode : SegMode) : List Segment :=
  db.segments.filter (autoPred docId mode)

/-- The row fields the idempotence property compares (everything except the
database-assigned primary key and the tombstone). -/
def segTuple (s : Segment) : Int × SegMode × List Char × List Char × Int × Int :=
  (s.orderIndex, s.mode, s.title, s.content, s.startChar, s.endChar)

theorem autoPred_mkAuto (L d : Nat) (m : SegMode) (ch : Chunk) (o i : Nat) :
    autoPred d m (mkAuto L d m ch o i) = true := by
  simp [autoPred, mkAuto]

theorem autoPred_reindexOne (d : Nat) (m : SegMode) (ids : List Nat) (base : Int)
    (s : Segment) : autoPred d m (reindexOne ids base s) = autoPred d m s := by
  obtain ⟨_, h2, h3, _, _, _, _, h8, _⟩ := reindexOne_fields ids base s
  simp [autoPred, h2, h3, h8]

theorem manualAlive_not_auto {d : Nat} {m : SegMode} {s : Segment}
    (h : manualAlive d m s = true) : autoPred d m s = false := by
  simp [manualAlive] at h
  simp [autoPred, h.2.2.1]

/-- Unfolding a successful `segment_document` call. -/
theorem segment_document_ok {db : DB} {docId : Nat} {mode : SegMode} {db' : DB}
    {doc : Document}
    (hdoc : db.documents.find?
      (fun d => decide (d.id = docId ∧ d.deletedAt = none)) = some doc)
    (hok : segment_document db docId mode = .ok db') :
    db'.documents = db.documents ∧
    db'.versions = db.versions ∧
    db'.folders = db.folders ∧
    db'.nextSegId = (insertAutos doc.text.length docId mode
      (chunksFor mode doc.text) db.nextSegId 0).2.1 ∧
    db'.segments = reindexManuals
      (db.segments.filter (fun s => !autoPred docId mode s) ++
        (insertAutos doc.text.length docId mode
          (chunksFor mode doc.text) db.nextSegId 0).1)
      ((sortSegs (db.segments.filter (manualAlive docId mode))).map (fun s => s.id))
      ((insertAutos doc.text.length docId mode
        (chunksFor mode doc.text) db.nextSegId 0).2.2 : Int) := by
  unfold segment_document at hok
  rw [hdoc] at hok
  dsimp only at hok
  rw [Except.ok.injEq] at hok
  subst hok
  exact ⟨rfl, rfl, rfl, rfl, rfl⟩

theorem insertAutos_ids_nodup (L d : Nat) (m : SegMode) :
    ∀ (chunks : List Chunk) (sid ord : Nat),
      ((insertAutos L d m chunks sid ord).1.map Segment.id).Nodup := by
  intro chunks
  induction chunks with
  | nil => intro sid ord; simp [insertAutos]
  | cons ch rest ih =>
    intro sid ord
    unfold insertAutos
    by_cases hne : pyStrip ch.content = []
    · rw [if_pos hne]
      exact ih sid ord
    · rw [if_neg hne]
      dsimp only
      rw [List.map_cons, List.nodup_cons]
      refine ⟨?_, ih (sid + 1) (ord + 1)⟩
      intro hmem
      obtain ⟨s, hs, hsid⟩ := List.mem_map.mp hmem
      have := (insertAutos_id_range L d m rest (sid + 1) (ord + 1)).2 s hs
      have hid : (mkAuto L d m ch ord sid).id = sid := (mkAuto_fields L d m ch ord sid).2.2.2.2.1
      omega

/-- After a successful reconcile with fresh ids, the auto rows of
`(document, mode)` are exactly the freshly inserted ones. -/
theorem segment_document_autos {db : DB} {docId : Nat} {mode : SegMode} {db' : DB}
    {doc : Document}
    (hdoc : db.documents.find?
      (fun d => decide (d.id = docId ∧ d.deletedAt = none)) = some doc)
    (hfresh : ∀ s ∈ db.segments, s.id < db.nextSegId)
    (hok : segment_document db docId mode = .ok db') :
    autosOf db' docId mode = (insertAutos doc.text.length docId mode
      (chunksFor mode doc.text) db.nextSegId 0).1 := by
  obtain ⟨_, _, _, _, hsegs⟩ := segment_document_ok hdoc hok
  unfold autosOf
  rw [hsegs]
  unfold reindexManuals
  set newSegs := (insertAutos doc.text.length docId mode
    (chunksFor mode doc.text) db.nextSegId 0).1 with hnew
  set msIds := (sortSegs (db.segments.filter (manualAlive docId mode))).map
    (fun s => s.id) with hms
  set base := ((insertAutos doc.text.length docId mode
    (chunksFor mode doc.text) db.nextSegId 0).2.2 : Int) with hbase
  rw [List.filter_map]
  have hcong : (db.segments.filter (fun s => !autoPred docId mode s) ++ newSegs).filter
      (autoPred docId mode ∘ reindexOne msIds base) =
      (db.segments.filter (fun s => !autoPred docId mode s) ++ newSegs).filter
      (autoPred docId mode) := by
    apply List.filter_congr
    intro s _
    exact autoPred_reindexOne docId mode msIds base s
  rw [hcong, List.filter_append]
  have hdel : (db.segments.filter (fun s => !autoPred docId mode s)).filter
      (autoPred docId mode) = [] := by
    rw [List.filter_eq_nil_iff]
    intro a ha
    have haf := List.of_mem_filter ha
    simp at haf
    simp [haf]
  rw [hdel, List.nil_append]
  have hself : newSegs.filter (autoPred docId mode) = newSegs := by
    rw [List.filter_eq_self]
    intro s hs
    obtain ⟨ch, _, o, i, heq, _⟩ := insertAutos_mem_spec doc.text.length docId mode
      (chunksFor mode doc.text) db.nextSegId 0 s hs
    rw [heq]
    exact autoPred_mkAuto _ _ _ _ _ _
  rw [hself]
  have hident : ∀ s ∈ newSegs, reindexOne msIds base s = id s := by
    intro s hs
    apply reindexOne_not_mem
    intro hmem
    rw [hms] at hmem
    obtain ⟨t, ht, htid⟩ := List.mem_map.mp hmem
    have ht2 : t ∈ db.segments.filter (manualAlive docId mode) :=
      (sortSegs_perm _).mem_iff.mp ht
    have ht3 : t ∈ db.segments := List.mem_of_mem_filter ht2
    have ht4 := hfresh t ht3
    have hs2 := (insertAutos_id_range doc.text.length docId mode
      (chunksFor mode doc.text) db.nextSegId 0).2 s hs
    omega
  rw [List.map_congr_left hident, List.map_id]

theorem segment_document_fresh {db : DB} {docId : Nat} {mode : SegMode} {db' : DB}
    (hfresh : ∀ s ∈ db.segments, s.id < db.nextSegId)
    (hok : segment_document db docId mode = .ok db') :
    ∀ s ∈ db'.segments, s.id < db'.nextSegId := by
  cases hdoc : db.documents.find?
      (fun d => decide (d.id = docId ∧ d.deletedAt = none)) with
  | none =>
    unfold segment_document at hok
    rw [hdoc] at hok
    simp at hok
  | some doc =>
    obtain ⟨_, _, _, hnid, hsegs⟩ := segment_document_ok hdoc hok
    intro s hs
    rw [hsegs] at hs
    unfold reindexManuals at hs
    obtain ⟨t, ht, hts⟩ := List.mem_map.mp hs
    have hid : s.id = t.id := by
      rw [← hts]
      exact (reindexOne_fields _ _ t).1
    rw [hid, hnid]
    obtain ⟨hup, hmem⟩ := insertAutos_id_range doc.text.length docId mode
      (chunksFor mode doc.text) db.nextSegId 0
    rcases List.mem_append.mp ht with hold | hnewm
    · have := hfresh t (List.mem_of_mem_filter hold)
      omega
    · have := hmem t hnewm
      omega

theorem segment_document_docs {db : DB} {docId : Nat} {mode : SegMode} {db' : DB}
    (hok : segment_document db docId mode = .ok db') :
    db'.documents = db.documents ∧ db'.versions = db.versions := by
  cases hdoc : db.documents.find?
      (fun d => decide (d.id = docId ∧ d.deletedAt = none)) with
  | none =>
    unfold segment_document at hok
    rw [hdoc] at hok
    simp at hok
  | some doc =>
    obtain ⟨h1, h2, _⟩ := segment_document_ok hdoc hok
    exact ⟨h1, h2⟩

theorem insertAutos_tuple_sid (L d : Nat) (m : SegMode) :
    ∀ (chunks : List Chunk) (sid sid' ord : Nat),
      (insertAutos L d m chunks sid ord).1.map segTuple =
      (insertAutos L d m chunks sid' ord).1.map segTuple := by
  intro chunks
  induction chunks with
  | nil => intro sid sid' ord; rfl
  | cons ch rest ih =>
    intro sid sid' ord
    unfold insertAutos
    by_cases hne : pyStrip ch.content = []
    · rw [if_pos hne, if_pos hne]
      exact ih sid sid' ord
    · rw [if_neg hne, if_neg hne]
      dsimp only
      rw [List.map_cons, List.map_cons, ih (sid + 1) (sid' + 1) (ord + 1)]
      rfl

/-! ## The claims -/

/-- C9: for every Document, Segment or Folder, purge permanently removes the
entity when its `deleted_at` tombstone is set (every row with that id is gone
from the store), and when `deleted_at` is null the call is rejected with the
InvalidState rejection — realised as `bad_request` in `recycle_bin.py` — and no
new store is produced, so the entity is left unchanged. -/
theorem C9_purge_requires_tombstone (db : DB) :
    (∀ docId doc,
      db.documents.find? (fun d => decide (d.id = docId)) = some doc →
      (doc.deletedAt = none →
        permanently_delete_document db docId = .error .badRequestE) ∧
      (doc.deletedAt ≠ none →
        ∃ db', permanently_delete_document db docId = .ok db' ∧
          db'.documents = db.documents.filter (fun d => !decide (d.id = docId)) ∧
          ∀ d ∈ db'.documents, d.id ≠ docId)) ∧
    (∀ segId seg,
      db.segments.find? (fun s => decide (s.id = segId)) = some seg →
      (seg.deletedAt = none →
        permanently_delete_segment db segId = .error .badRequestE) ∧
      (seg.deletedAt ≠ none →
        ∃ db', permanently_delete_segment db segId = .ok db' ∧
          db'.segments = db.segments.filter (fun s => !decide (s.id = segId)) ∧
          ∀ s ∈ db'.segments, s.id ≠ segId)) ∧
    (∀ folderId fo,
      db.folders.find? (fun g => decide (g.id = folderId)) = some fo →
      (fo.deletedAt = none →
        permanently_delete_folder db folderId = .error .badRequestE) ∧
      (fo.deletedAt ≠ none →
        ∃ db', permanently_delete_folder db folderId = .ok db' ∧
          db'.folders = db.folders.filter (fun g => !decide (g.id = folderId)) ∧
          ∀ g ∈ db'.folders, g.id ≠ folderId)) := by
  refine ⟨?_, ?_, ?_⟩
  · intro docId doc hfind
    constructor
    · intro hnone
      unfold permanently_delete_document
      rw [hfind]
      dsimp only
      rw [hnone]
    · intro hsome
      unfold permanently_delete_document
      rw [hfind]
      dsimp only
      cases hd : doc.deletedAt with
      | none => exact absurd hd hsome
      | some t =>
        refine ⟨_, rfl, rfl, ?_⟩
        intro d hd2 heq
        have := List.of_mem_filter hd2
        rw [heq] at this
        simp at this
  · intro segId seg hfind
    constructor
    · intro hnone
      unfold permanently_delete_segment
      rw [hfind]
      dsimp only
      rw [hnone]
    · intro hsome
      unfold permanently_delete_segment
      rw [hfind]
      dsimp only
      cases hd : seg.deletedAt with
      | none => exact absurd hd hsome
      | some t =>
        refine ⟨_, rfl, rfl, ?_⟩
        intro s hs2 heq
        have := List.of_mem_filter hs2
        rw [heq] at this
        simp at this
  · intro folderId fo hfind
    constructor
    · intro hnone
      unfold permanently_delete_folder
      rw [hfind]
      dsimp only
      rw [hnone]
    · intro hsome
      unfold permanently_delete_folder
      rw [hfind]
      dsimp only
      cases hd : fo.deletedAt with
      | none => exact absurd hd hsome
      | some t =>
        refine ⟨_, rfl, rfl, ?_⟩
        intro g hg2 heq
        have := List.of_mem_filter hg2
        rw [heq] at this
        simp at this

theorem C9_purge_requires_tombstone_witness :
    (wDB9.documents.find? (fun d => decide (d.id = 1)) = some wDoc ∧
      wDoc.deletedAt = none ∧
      permanently_delete_document wDB9 1 = .error .badRequestE) ∧
    (wDB9.folders.find? (fun g => decide (g.id = 4)) = some wFolderDel ∧
      wFolderDel.deletedAt ≠ none ∧
      ∃ db', permanently_delete_folder wDB9 4 = .ok db' ∧
        db'.folders = wDB9.folders.filter (fun g => !decide (g.id = 4)) ∧
        ∀ g ∈ db'.folders, g.id ≠ 4) := by
  constructor
  · exact ⟨by decide, by decide,
      ((C9_purge_requires_tombstone wDB9).1 1 wDoc (by decide)).1 (by decide)⟩
  · exact ⟨by decide, by decide,
      ((C9_purge_requires_tombstone wDB9).2.2 4 wFolderDel (by decide)).2 (by decide)⟩

/-- C2: a PATCH on an auto segment (`is_manual=false`) never mutates the
stored rows: on success the store is the old store with exactly one appended
row, which is manual, carries an id different from every existing row (so a
different id than the original), sits at the next `order_index` for
`(document, mode)`, copies the unspecified fields from the original and applies
the requested changes; the original auto row is still present byte-for-byte
(the old rows form an unchanged prefix of the new store). -/
theorem C2_auto_patch_forks {db : DB} {segId : Nat} {p : SegPatch} {seg : Segment}
    (hfind : db.segments.find? (fun s =>
      decide (s.id = segId ∧ s.deletedAt = none) && docAlive db s.documentId) =
      some seg)
    {doc : Document}
    (hdoc : db.documents.find? (fun d =>
      decide (d.id = seg.documentId ∧ d.deletedAt = none)) = some doc)
    (hauto : seg.isManual = false)
    (hfresh : ∀ s ∈ db.segments, s.id < db.nextSegId)
    {db' : DB} (hok : patch_segment db segId p = .ok db') :
    ∃ newSeg : Segment,
      db'.segments = db.segments ++ [newSeg] ∧
      newSeg.isManual = true ∧
      (∀ s ∈ db.segments, s.id ≠ newSeg.id) ∧
      seg ∈ db'.segments ∧
      newSeg.documentId = seg.documentId ∧ newSeg.mode = seg.mode ∧
      newSeg.orderIndex =
        (maxOrderIndex db.segments seg.documentId seg.mode).getD (-1) + 1 ∧
      newSeg.title = (p.title.map pyStrip).getD seg.title ∧
      (p.startPos = none → p.endPos = none →
        newSeg.startChar = seg.startChar ∧ newSeg.endChar = seg.endChar ∧
        newSeg.content = p.content.getD seg.content) ∧
      (∀ ns ne : Int, p.startPos = some ns → p.endPos = some ne →
        newSeg.startChar = ns ∧ newSeg.endChar = ne ∧
        newSeg.content = (match p.content with
          | some c => c
          | none => pySlice doc.text ns.toNat ne.toNat)) := by
  have hsegmem : seg ∈ db.segments := List.mem_of_find?_eq_some hfind
  unfold patch_segment at hok
  rw [hfind] at hok
  dsimp only at hok
  rw [hdoc] at hok
  dsimp only at hok
  rw [if_pos hauto] at hok
  cases hsp : p.startPos with
  | some ns =>
    cases hep : p.endPos with
    | none =>
      rw [hsp, hep] at hok
      cases hok
    | some ne =>
      rw [hsp, hep] at hok
      dsimp only at hok
      by_cases hval : ns < 0 ∨ ne < 0 ∨ ns ≥ (doc.text.length : Int) ∨
          ne > (doc.text.length : Int) ∨ ne ≤ ns
      · rw [if_pos hval] at hok
        cases hok
      · rw [if_neg hval] at hok
        rw [Except.ok.injEq] at hok
        subst hok
        refine ⟨_, rfl, rfl, ?_, List.mem_append_left _ hsegmem,
          rfl, rfl, rfl, rfl, ?_, ?_⟩
        · intro s hs
          have := hfresh s hs
          dsimp only
          omega
        · intro h1 _
          simp at h1
        · intro ns' ne' h1 h2
          cases h1
          cases h2
          exact ⟨rfl, rfl, rfl⟩
  | none =>
    cases hep : p.endPos with
    | some ne =>
      rw [hsp, hep] at hok
      cases hok
    | none =>
      rw [hsp, hep] at hok
      dsimp only at hok
      rw [Except.ok.injEq] at hok
      subst hok
      refine ⟨_, rfl, rfl, ?_, List.mem_append_left _ hsegmem,
        rfl, rfl, rfl, rfl, ?_, ?_⟩
      · intro s hs
        have := hfresh s hs
        dsimp only
        omega
      · intro _ _
        exact ⟨rfl, rfl, rfl⟩
      · intro ns' ne' h1 _
        simp at h1

theorem C2_auto_patch_forks_witness :
    (wDB.segments.find? (fun s =>
      decide (s.id = 1 ∧ s.deletedAt = none) && docAlive wDB s.documentId) =
      some wAuto) ∧
    (wDB.documents.find? (fun d =>
      decide (d.id = wAuto.documentId ∧ d.deletedAt = none)) = some wDoc) ∧
    wAuto.isManual = false ∧
    (patch_segment wDB 1 ⟨some " x ".data, none, none, none⟩ = .ok wDBfork) ∧
    ∃ newSeg : Segment,
      wDBfork.segments = wDB.segments ++ [newSeg] ∧
      newSeg.isManual = true ∧
      (∀ s ∈ wDB.segments, s.id ≠ newSeg.id) ∧
      wAuto ∈ wDBfork.segments ∧
      newSeg.documentId = wAuto.documentId ∧ newSeg.mode = wAuto.mode ∧
      newSeg.orderIndex =
        (maxOrderIndex wDB.segments wAuto.documentId wAuto.mode).getD (-1) + 1 ∧
      newSeg.title = ((some " x ".data).map pyStrip).getD wAuto.title ∧
      ((none : Option Int) = none → (none : Option Int) = none →
        newSeg.startChar = wAuto.startChar ∧ newSeg.endChar = wAuto.endChar ∧
        newSeg.content = (none : Option (List Char)).getD wAuto.content) ∧
      (∀ ns ne : Int, (none : Option Int) = some ns →
        (none : Option Int) = some ne →
        newSeg.startChar = ns ∧ newSeg.endChar = ne ∧
        newSeg.content = (match (none : Option (List Char)) with
          | some c => c
          | none => pySlice wDoc.text ns.toNat ne.toNat)) := by
  refine ⟨by decide, by decide, by decide, by rfl, ?_⟩
  exact @C2_auto_patch_forks wDB 1 ⟨some " x ".data, none, none, none⟩ wAuto
    (by decide) wDoc (by decide) (by decide) (by decide) wDBfork (by rfl)

/-- C8 counterexample: the claim fails already on the spec's own Scenario A
text.  `segment_qa` returns one Q/A segment spanning the whole text, but its
stored content is the synthetic rendering `USER:\nHi\n\nASSISTANT:\nHello`
(with an inserted blank line), which is not the trimmed slice
`USER:\nHi\nASSISTANT:\nHello`. -/
theorem C8_qa_synthetic_content_counterexample :
    segment_qa wText =
      [⟨"Q/A #1".data, "USER:\nHi\n\nASSISTANT:\nHello".data, 0, 25⟩] ∧
    pyStrip (pySlice wText 0 25) = wText ∧
    "USER:\nHi\n\nASSISTANT:\nHello".data ≠ wText := by
  refine ⟨by decide, by decide, by decide⟩

/-- C8 amended: slice correctness holds for the paragraph segmenter — every
chunk stores exactly the trimmed slice, so the trimmed
`original_text[start:end]` equals the content — and a manual segment created
from a span stores the exact untrimmed slice `text[start:end]`.  QA-pair and
single-role segments instead carry synthetic content (role labels plus trimmed
block bodies), not the slice. -/
theorem C8_slice_correctness :
    (∀ (cs : List Char) (mc : Int), ∀ ch ∈ segment_paragraphs cs mc,
      ch.content = pySlice cs ch.startPos.toNat ch.endPos.toNat ∧
      pyStrip (pySlice cs ch.startPos.toNat ch.endPos.toNat) = ch.content) ∧
    (∀ (db : DB) (docId : Nat) (p : ManualSegIn) (doc : Document) (db' : DB),
      db.documents.find? (fun d => decide (d.id = docId)) = some doc →
      create_manual_segment db docId p = .ok db' →
      ∃ s, db'.segments = db.segments ++ [s] ∧
        s.content = pySlice doc.text p.startPos.toNat p.endPos.toNat ∧
        s.startChar = p.startPos ∧ s.endChar = p.endPos ∧ s.isManual = true) := by
  constructor
  · intro cs mc ch hch
    obtain ⟨h1, h2, _⟩ := segment_paragraphs_good cs mc ch hch
    refine ⟨h1, ?_⟩
    rw [← h1, h2]
  · intro db docId p doc db' hdoc hok
    unfold create_manual_segment at hok
    rw [hdoc] at hok
    dsimp only at hok
    by_cases hval : p.startPos < 0 ∨ p.endPos < 0 ∨
        p.startPos ≥ (doc.text.length : Int) ∨ p.endPos > (doc.text.length : Int) ∨
        p.endPos ≤ p.startPos
    · rw [if_pos hval] at hok
      cases hok
    · rw [if_neg hval] at hok
      rw [Except.ok.injEq] at hok
      subst hok
      exact ⟨_, rfl, rfl, rfl, rfl, rfl⟩

theorem C8_slice_correctness_witness :
    ((segment_paragraphs "  hello  ".data 2500).head? =
      some ⟨"Chunk #1".data, "hello".data, 2, 7⟩) ∧
    ("hello".data = pySlice "  hello  ".data 2 7 ∧
      pyStrip (pySlice "  hello  ".data 2 7) = "hello".data) ∧
    (wDB.documents.find? (fun d => decide (d.id = 1)) = some wDoc) ∧
    (∃ s : Segment,
      ((create_manual_segment wDB 1 ⟨.qa, 1, 3, none⟩).toOption.getD wDB).segments =
        wDB.segments ++ [s] ∧
      s.content = pySlice wDoc.text (1 : Int).toNat (3 : Int).toNat ∧
      s.startChar = 1 ∧ s.endChar = 3 ∧ s.isManual = true) := by
  refine ⟨by decide, ?_, by decide, ?_⟩
  · exact C8_slice_correctness.1 "  hello  ".data 2500
      ⟨"Chunk #1".data, "hello".data, 2, 7⟩ (by decide)
  · exact C8_slice_correctness.2 wDB 1 ⟨.qa, 1, 3, none⟩ wDoc _
      (by decide) (by rfl)

/-- C7 counterexample: marker recognition is case-sensitive and refuses inline
content, and the spans do not cover a preamble.  Lowercase `user:` /
`assistant:` markers produce no matches at all, so `segment_qa` falls back to
paragraph chunking; `USER: hi` with inline content on the marker line is not a
match either; and with a preamble line `x` the first block starts at offset 2,
not 0, so the spans do not cover the whole text. -/
theorem C7_role_marker_counterexample :
    roleMatches "user:\nHi\nassistant:\nHello".data = [] ∧
    (roleMatches wText).length = 2 ∧
    segment_qa "user:\nHi\nassistant:\nHello".data =
      segment_paragraphs "user:\nHi\nassistant:\nHello".data 2500 ∧
    roleMatches "USER: hi\nASSISTANT: yo".data = [] ∧
    ((buildBlocks "x\nUSER:\nHi\nASSISTANT:\nYo".data
        (roleMatches "x\nUSER:\nHi\nASSISTANT:\nYo".data)).map
      (fun b => b.blockStart)).head? = some 2 := by
  refine ⟨by decide, by decide, by rfl, by decide, by decide⟩

theorem buildBlocks_cons_cons (cs : List Char) (m n : RMatch) (rest : List RMatch) :
    buildBlocks cs (m :: n :: rest) =
      buildBlock cs m n.mStart :: buildBlocks cs (n :: rest) := rfl

theorem buildBlocks_single (cs : List Char) (m : RMatch) :
    buildBlocks cs [m] = [buildBlock cs m cs.length] := rfl

theorem buildBlocks_head_blockStart (cs : List Char) (n : RMatch)
    (rest : List RMatch) :
    ∀ b, (buildBlocks cs (n :: rest)).head? = some b → b.blockStart = n.mStart := by
  intro b hb
  cases rest with
  | nil =>
    rw [buildBlocks_single] at hb
    simp at hb
    subst hb
    rfl
  | cons k r2 =>
    rw [buildBlocks_cons_cons] at hb
    simp at hb
    subst hb
    rfl

theorem buildBlocks_ne_nil (cs : List Char) (n : RMatch) (rest : List RMatch) :
    buildBlocks cs (n :: rest) ≠ [] := by
  cases rest with
  | nil => rw [buildBlocks_single]; simp
  | cons k r2 => rw [buildBlocks_cons_cons]; simp

theorem buildBlocks_chain (cs : List Char) :
    ∀ ms : List RMatch,
      List.Chain' (fun a b => a.blockEnd = b.blockStart) (buildBlocks cs ms) := by
  intro ms
  induction ms with
  | nil => simp [buildBlocks]
  | cons m rest ih =>
    cases rest with
    | nil =>
      rw [buildBlocks_single]
      simp
    | cons n rest2 =>
      rw [buildBlocks_cons_cons, List.chain'_cons']
      refine ⟨?_, ih⟩
      intro b hb
      have := buildBlocks_head_blockStart cs n rest2 b hb
      rw [this]
      rfl

theorem buildBlocks_getLast (cs : List Char) :
    ∀ ms : List RMatch, ∀ b, (buildBlocks cs ms).getLast? = some b →
      b.blockEnd = cs.length := by
  intro ms
  induction ms with
  | nil => intro b hb; simp [buildBlocks] at hb
  | cons m rest ih =>
    intro b hb
    cases rest with
    | nil =>
      rw [buildBlocks_single] at hb
      simp at hb
      subst hb
      rfl
    | cons n rest2 =>
      rw [buildBlocks_cons_cons] at hb
      rw [show buildBlock cs m n.mStart :: buildBlocks cs (n :: rest2) =
        [buildBlock cs m n.mStart] ++ buildBlocks cs (n :: rest2) from rfl] at hb
      rw [List.getLast?_append_of_ne_nil _ (buildBlocks_ne_nil cs n rest2)] at hb
      exact ih b hb

/-- C7 amended: `ROLE_RE` recognises exactly the five uppercase English role
words at line starts, case-sensitively, and only when the rest of the marker
line is whitespace — there is no localized alias table and a marker with inline
content on its line is not recognised.  The block spans derived from the
matches start at the match positions, are contiguous, and the last span ends at
the end of the text, so the spans cover the region from the first marker to the
end of the text (not the whole text when a preamble precedes the first
marker). -/
theorem C7_role_marker_recognition (cs : List Char) :
    (∀ m ∈ roleMatches cs,
      (roleWord m.role ++ [':']).isPrefixOf (cs.drop m.mStart) = true ∧
      m.mStart ∈ lineStarts cs) ∧
    ((buildBlocks cs (roleMatches cs)).map (fun b => b.blockStart) =
      (roleMatches cs).map (fun m => m.mStart)) ∧
    List.Chain' (fun a b => a.blockEnd = b.blockStart)
      (buildBlocks cs (roleMatches cs)) ∧
    (∀ b, (buildBlocks cs (roleMatches cs)).getLast? = some b →
      b.blockEnd = cs.length) := by
  refine ⟨?_, buildBlocks_blockStart cs _, buildBlocks_chain cs _,
    buildBlocks_getLast cs _⟩
  intro m hm
  obtain ⟨h1, h2, _⟩ := roleMatches_mem_spec cs m hm
  exact ⟨h1, h2⟩

theorem C7_role_marker_recognition_witness :
    (⟨Role.user, 0, 5⟩ : RMatch) ∈ roleMatches wText ∧
    ((roleWord Role.user ++ [':']).isPrefixOf (wText.drop 0) = true ∧
      (0 : Nat) ∈ lineStarts wText) := by
  refine ⟨by decide, ?_⟩
  exact (C7_role_marker_recognition wText).1 ⟨Role.user, 0, 5⟩ (by decide)

/-- C4: `_get_document_text_version` (with the version table present) resolves
exactly as claimed: version 0 always returns the Document row title and text;
version `None` returns the stored row with the greatest `version_number` when
any version rows exist and falls back to the Document row otherwise; and a
version `N > 0` returns exactly the stored row carrying that `version_number`,
or the NotFound error when no such row exists. -/
theorem C4_get_text_resolution (versions : List DocumentVersion) (doc : Document) :
    (_get_document_text_version true versions doc (some 0) =
      .ok (doc.title, doc.text)) ∧
    (versionsOf versions doc.id ≠ [] →
      ∃ v, latestVersion (versionsOf versions doc.id) = some v) ∧
    (∀ v, latestVersion (versionsOf versions doc.id) = some v →
      _get_document_text_version true versions doc none = .ok (v.title, v.text) ∧
      v ∈ versionsOf versions doc.id ∧
      ∀ w ∈ versionsOf versions doc.id, w.versionNumber ≤ v.versionNumber) ∧
    (versionsOf versions doc.id = [] →
      _get_document_text_version true versions doc none = .ok (doc.title, doc.text)) ∧
    (∀ n : Int, 0 < n →
      (∀ v, (versionsOf versions doc.id).find?
          (fun w => decide (w.versionNumber = n)) = some v →
        _get_document_text_version true versions doc (some n) = .ok (v.title, v.text) ∧
        v.versionNumber = n ∧ v ∈ versionsOf versions doc.id) ∧
      ((∀ w ∈ versionsOf versions doc.id, w.versionNumber ≠ n) →
        _get_document_text_version true versions doc (some n) = .error .notFoundE)) := by
  refine ⟨rfl, ?_, ?_, ?_, ?_⟩
  · intro hne
    exact latestVersion_isSome hne
  · intro v hv
    refine ⟨?_, (latestVersion_spec hv).1, (latestVersion_spec hv).2⟩
    unfold _get_document_text_version
    dsimp only
    rw [hv]
  · intro hnil
    unfold _get_document_text_version
    dsimp only
    rw [hnil]
    rfl
  · intro n hn
    constructor
    · intro v hv
      refine ⟨?_, ?_, List.mem_of_find?_eq_some hv⟩
      · unfold _get_document_text_version
        dsimp only
        rw [if_neg (by omega)]
        rw [hv]
      · have := List.find?_some hv
        simpa using this
    · intro hno
      unfold _get_document_text_version
      dsimp only
      rw [if_neg (by omega)]
      have : (versionsOf versions doc.id).find?
          (fun w => decide (w.versionNumber = n)) = none := by
        rw [List.find?_eq_none]
        intro w hw
        simp only [decide_eq_true_eq]
        exact hno w hw
      rw [this]

/-- C10: every auto row written by a successful reconcile has content that is
nonempty and already stripped, and offsets clamped into
`0 ≤ start ≤ end ≤ len(text)`; a chunk whose content strips to empty is
silently skipped rather than stored, so the stored auto count equals the count
of chunks with nonempty stripped content — possibly smaller than the number of
chunks the segmenter produced — and out-of-range offsets are clamped rather
than rejected (the insert loop is total on integer offsets). -/
theorem C10_reconcile_clamps_and_skips {db : DB} {docId : Nat} {mode : SegMode}
    {db' : DB} {doc : Document}
    (hdoc : db.documents.find?
      (fun d => decide (d.id = docId ∧ d.deletedAt = none)) = some doc)
    (hfresh : ∀ s ∈ db.segments, s.id < db.nextSegId)
    (hok : segment_document db docId mode = .ok db') :
    (∀ s ∈ autosOf db' docId mode,
      pyStrip s.content = s.content ∧ s.content ≠ [] ∧
      0 ≤ s.startChar ∧ s.startChar ≤ s.endChar ∧
      s.endChar ≤ (doc.text.length : Int)) ∧
    (autosOf db' docId mode).length =
      ((chunksFor mode doc.text).filter
        (fun ch => !decide (pyStrip ch.content = []))).length ∧
    (autosOf db' docId mode).length ≤ (chunksFor mode doc.text).length := by
  have hautos := segment_document_autos hdoc hfresh hok
  refine ⟨?_, ?_, ?_⟩
  · intro s hs
    rw [hautos] at hs
    obtain ⟨ch, hch, o, i, heq, _⟩ := insertAutos_mem_spec doc.text.length docId mode
      (chunksFor mode doc.text) db.nextSegId 0 s hs
    have hcontent : s.content = pyStrip ch.content := by
      rw [heq]
      exact (mkAuto_fields _ _ _ _ _ _).2.2.2.2.2.2
    have hstart : s.startChar = max 0 ch.startPos := by rw [heq]; rfl
    have hendc : s.endChar = if (min (doc.text.length : Int) ch.endPos) <
        max 0 ch.startPos then max 0 ch.startPos
      else min (doc.text.length : Int) ch.endPos := by rw [heq]; rfl
    obtain ⟨hs0, hsle⟩ := chunksFor_start_facts mode doc.text ch hch
    refine ⟨?_, ?_, ?_, ?_, ?_⟩
    · rw [hcontent, pyStrip_idem]
    · rw [hcontent]
      exact chunksFor_strip_ne_nil mode doc.text ch hch
    · rw [hstart]; omega
    · rw [hstart, hendc]
      split <;> omega
    · rw [hendc]
      split <;> omega
  · rw [hautos]
    exact insertAutos_length _ _ _ _ _ _
  · rw [hautos, insertAutos_length]
    exact List.length_filter_le _ _

theorem C10_reconcile_clamps_and_skips_witness :
    (wDB.documents.find?
      (fun d => decide (d.id = 1 ∧ d.deletedAt = none)) = some wDoc) ∧
    (∀ s ∈ wDB.segments, s.id < wDB.nextSegId) ∧
    (segment_document wDB 1 SegMode.qa = .ok wDB1) ∧
    (autosOf wDB1 1 SegMode.qa).length =
      ((chunksFor SegMode.qa wDoc.text).filter
        (fun ch => !decide (pyStrip ch.content = []))).length := by
  refine ⟨by decide, by decide, by rfl, ?_⟩
  exact (@C10_reconcile_clamps_and_skips wDB 1 SegMode.qa wDB1 wDoc
    (by decide) (by decide) (by rfl)).2.1

theorem C4_get_text_resolution_witness :
    (versionsOf [⟨1, 1, "t1".data, "x1".data⟩, ⟨1, 2, "t2".data, "x2".data⟩] 1 ≠ []) ∧
    (latestVersion (versionsOf
        [⟨1, 1, "t1".data, "x1".data⟩, ⟨1, 2, "t2".data, "x2".data⟩] 1) =
      some ⟨1, 2, "t2".data, "x2".data⟩) ∧
    _get_document_text_version true
      [⟨1, 1, "t1".data, "x1".data⟩, ⟨1, 2, "t2".data, "x2".data⟩] wDoc none =
      .ok ("t2".data, "x2".data) := by
  refine ⟨by decide, by decide, ?_⟩
  exact ((C4_get_text_resolution
    [⟨1, 1, "t1".data, "x1".data⟩, ⟨1, 2, "t2".data, "x2".data⟩] wDoc).2.2.1
    ⟨1, 2, "t2".data, "x2".data⟩ (by decide)).1

/-! ## Helper lemmas: anatomy of a successful `patch_document` (versioning) -/

theorem updateDoc_title_idtext (docs : List Document) (docId : Nat) (t : List Char) :
    (updateDoc docs docId (fun d => { d with title := t })).map
        (fun d => (d.id, d.text)) =
      docs.map (fun d => (d.id, d.text)) := by
  unfold updateDoc
  rw [List.map_map]
  refine List.map_congr_left ?_
  intro d _
  dsimp only [Function.comp]
  split <;> rfl

theorem patch_document_true_shape {db : DB} {docId : Nat} {p : DocPatch}
    {doc : Document}
    (hdoc : db.documents.find?
      (fun d => decide (d.id = docId ∧ d.deletedAt = none)) = some doc)
    {db' : DB} (hok : patch_document true db docId p = .ok db') :
    db'.segments = db.segments ∧ db'.folders = db.folders ∧
    db'.nextSegId = db.nextSegId ∧
    db'.documents.map (fun d => (d.id, d.text)) =
      db.documents.map (fun d => (d.id, d.text)) ∧
    ((p.title.getD (resolveCurrent true db.versions doc).1 =
          (resolveCurrent true db.versions doc).1 ∧
        p.text.getD (resolveCurrent true db.versions doc).2 =
          (resolveCurrent true db.versions doc).2) →
      db'.versions = db.versions) ∧
    (¬(p.title.getD (resolveCurrent true db.versions doc).1 =
          (resolveCurrent true db.versions doc).1 ∧
        p.text.getD (resolveCurrent true db.versions doc).2 =
          (resolveCurrent true db.versions doc).2) →
      db'.versions = db.versions ++
        [{ documentId := doc.id,
           versionNumber :=
             match maxVersionNumber (versionsOf db.versions doc.id) with
             | some m => m + 1
             | none => 1,
           title := p.title.getD (resolveCurrent true db.versions doc).1,
           text := p.text.getD (resolveCurrent true db.versions doc).2 }]) := by
  unfold patch_document at hok
  rw [hdoc] at hok
  dsimp only at hok
  by_cases hC : p.title.getD (resolveCurrent true db.versions doc).1 =
      (resolveCurrent true db.versions doc).1 ∧
    p.text.getD (resolveCurrent true db.versions doc).2 =
      (resolveCurrent true db.versions doc).2
  · rw [if_pos hC] at hok
    split at hok
    · rw [Except.ok.injEq] at hok
      subst hok
      exact ⟨rfl, rfl, rfl, updateDoc_title_idtext _ _ _, fun _ => rfl,
        fun h => absurd hC h⟩
    · rw [Except.ok.injEq] at hok
      subst hok
      exact ⟨rfl, rfl, rfl, rfl, fun _ => rfl, fun h => absurd hC h⟩
  · rw [if_neg hC] at hok
    split at hok
    · rw [Except.ok.injEq] at hok
      subst hok
      exact ⟨rfl, rfl, rfl, updateDoc_title_idtext _ _ _,
        fun h => absurd h hC, fun _ => rfl⟩
    · rw [Except.ok.injEq] at hok
      subst hok
      exact ⟨rfl, rfl, rfl, rfl, fun h => absurd h hC, fun _ => rfl⟩

theorem patch_segment_keeps_docs {db : DB} {segId : Nat} {p : SegPatch} {db' : DB}
    (hok : patch_segment db segId p = .ok db') :
    db'.documents = db.documents ∧ db'.versions = db.versions := by
  unfold patch_segment at hok
  repeat' (first | split at hok | dsimp only at hok)
  all_goals first
    | (rw [Except.ok.injEq] at hok; subst hok; exact ⟨rfl, rfl⟩)
    | cases hok

theorem applyOp_true_idtext (db : DB) (o : Op) :
    (applyOp true db o).documents.map (fun d => (d.id, d.text)) =
      db.documents.map (fun d => (d.id, d.text)) := by
  cases o with
  | patchDoc docId p =>
    show ((match patch_document true db docId p with
      | .ok db2 => db2
      | .error _ => db : DB)).documents.map (fun d => (d.id, d.text)) =
        db.documents.map (fun d => (d.id, d.text))
    cases hres : patch_document true db docId p with
    | error e => rfl
    | ok db2 =>
      cases hdoc : db.documents.find?
          (fun d => decide (d.id = docId ∧ d.deletedAt = none)) with
      | none =>
        unfold patch_document at hres
        rw [hdoc] at hres
        cases hres
      | some doc =>
        exact (patch_document_true_shape hdoc hres).2.2.2.1
  | segmentDoc docId m =>
    show ((match segment_document db docId m with
      | .ok db2 => db2
      | .error _ => db : DB)).documents.map (fun d => (d.id, d.text)) =
        db.documents.map (fun d => (d.id, d.text))
    cases hres : segment_document db docId m with
    | error e => rfl
    | ok db2 =>
      show db2.documents.map (fun d => (d.id, d.text)) =
        db.documents.map (fun d => (d.id, d.text))
      rw [(segment_document_docs hres).1]
  | patchSeg segId p =>
    show ((match patch_segment db segId p with
      | .ok db2 => db2
      | .error _ => db : DB)).documents.map (fun d => (d.id, d.text)) =
        db.documents.map (fun d => (d.id, d.text))
    cases hres : patch_segment db segId p with
    | error e => rfl
    | ok db2 =>
      show db2.documents.map (fun d => (d.id, d.text)) =
        db.documents.map (fun d => (d.id, d.text))
      rw [(patch_segment_keeps_docs hres).1]

/-- C1 counterexample: with the version store present, a `patch_document` call
— an operation other than ingestion — rewrites the stored Document row title.
Patching `{title: "b"}` on a store whose only document carries title `"doc"`
leaves the row with title `"b"` (the title-sync step copies the latest version
title back onto the row).  Only the text half of the invariant holds. -/
theorem C1_title_mutation_counterexample :
    wDBtitle.documents.map Document.title = ["b".data] ∧
    wDB.documents.map Document.title = ["doc".data] ∧
    ("b".data : List Char) ≠ "doc".data := by
  exact ⟨by decide, by decide, by decide⟩

/-- C1 amended: with the version store present, no sequence of
`patch_document`, `segment_document`, or `patch_segment` calls changes the
stored text of any Document row — the id-to-text map of the store is preserved
— and `version = 0` always resolves to the stored row fields.  (The stored
*title*, by contrast, can be rewritten by `patch_document`.) -/
theorem C1_original_text_immutable (db : DB) (ops : List Op) :
    (applyOps true db ops).documents.map (fun d => (d.id, d.text)) =
      db.documents.map (fun d => (d.id, d.text)) ∧
    ∀ d ∈ (applyOps true db ops).documents,
      _get_document_text_version true (applyOps true db ops).versions d
        (some 0) = .ok (d.title, d.text) := by
  constructor
  · induction ops generalizing db with
    | nil => rfl
    | cons o rest ih =>
      show (applyOps true (applyOp true db o) rest).documents.map
          (fun d => (d.id, d.text)) =
        db.documents.map (fun d => (d.id, d.text))
      rw [ih (applyOp true db o)]
      exact applyOp_true_idtext db o
  · intro d _
    rfl

theorem C1_original_text_immutable_witness :
    (applyOps true wDB [Op.patchDoc 1 ⟨some "b".data, none⟩,
        Op.segmentDoc 1 SegMode.qa]).documents.map (fun d => (d.id, d.text)) =
      wDB.documents.map (fun d => (d.id, d.text)) ∧
    ∀ d ∈ (applyOps true wDB [Op.patchDoc 1 ⟨some "b".data, none⟩,
        Op.segmentDoc 1 SegMode.qa]).documents,
      _get_document_text_version true
        (applyOps true wDB [Op.patchDoc 1 ⟨some "b".data, none⟩,
          Op.segmentDoc 1 SegMode.qa]).versions d (some 0) =
        .ok (d.title, d.text) :=
  C1_original_text_immutable wDB
    [Op.patchDoc 1 ⟨some "b".data, none⟩, Op.segmentDoc 1 SegMode.qa]

/-- Contiguity of the version ledger: every document's version rows carry, in
store order, exactly the numbers `1..N`. -/
def VersionsContiguous (db : DB) : Prop :=
  ∀ docId : Nat, ∃ N : Nat,
    (versionsOf db.versions docId).map (fun v => v.versionNumber) =
      (List.range' 1 N).map Int.ofNat

theorem versionsOf_append (vs : List DocumentVersion) (v : DocumentVersion)
    (docId : Nat) :
    versionsOf (vs ++ [v]) docId =
      versionsOf vs docId ++ if v.documentId = docId then [v] else [] := by
  unfold versionsOf
  rw [List.filter_append]
  by_cases h : v.documentId = docId
  · rw [if_pos h]
    simp [List.filter_cons, h]
  · rw [if_neg h]
    simp [List.filter_cons, h]

/-- C5: with the version store present, a patch whose requested title and text
both equal the currently resolved values appends no version row (idempotent
no-op); a patch that changes either appends exactly one row numbered
`max(existing)+1`, or `1` when the document has no rows; consequently every
operation preserves the invariant that each document's version numbers form
the contiguous sequence `1..N`. -/
theorem C5_version_numbering (db : DB) (docId : Nat) (p : DocPatch)
    (doc : Document)
    (hdoc : db.documents.find?
      (fun d => decide (d.id = docId ∧ d.deletedAt = none)) = some doc) :
    (∀ db', patch_document true db docId p = .ok db' →
      (p.title.getD (resolveCurrent true db.versions doc).1 =
          (resolveCurrent true db.versions doc).1 ∧
        p.text.getD (resolveCurrent true db.versions doc).2 =
          (resolveCurrent true db.versions doc).2) →
      db'.versions = db.versions) ∧
    (∀ db', patch_document true db docId p = .ok db' →
      ¬(p.title.getD (resolveCurrent true db.versions doc).1 =
          (resolveCurrent true db.versions doc).1 ∧
        p.text.getD (resolveCurrent true db.versions doc).2 =
          (resolveCurrent true db.versions doc).2) →
      db'.versions = db.versions ++
        [{ documentId := doc.id,
           versionNumber :=
             match maxVersionNumber (versionsOf db.versions doc.id) with
             | some m => m + 1
             | none => 1,
           title := p.title.getD (resolveCurrent true db.versions doc).1,
           text := p.text.getD (resolveCurrent true db.versions doc).2 }]) ∧
    (∀ o : Op, VersionsContiguous db → VersionsContiguous (applyOp true db o)) := by
  refine ⟨?_, ?_, ?_⟩
  · intro db' hok hC
    exact (patch_document_true_shape hdoc hok).2.2.2.2.1 hC
  · intro db' hok hC
    exact (patch_document_true_shape hdoc hok).2.2.2.2.2 hC
  · intro o hContig
    cases o with
    | patchDoc d2 q =>
      show VersionsContiguous (match patch_document true db d2 q with
        | .ok db2 => db2
        | .error _ => db : DB)
      cases hres : patch_document true db d2 q with
      | error e => exact hContig
      | ok db2 =>
        cases hd2 : db.documents.find?
            (fun d => decide (d.id = d2 ∧ d.deletedAt = none)) with
        | none =>
          unfold patch_document at hres
          rw [hd2] at hres
          cases hres
        | some doc2 =>
          obtain ⟨_, _, _, _, hsame, happ⟩ := patch_document_true_shape hd2 hres
          by_cases hC : q.title.getD (resolveCurrent true db.versions doc2).1 =
              (resolveCurrent true db.versions doc2).1 ∧
            q.text.getD (resolveCurrent true db.versions doc2).2 =
              (resolveCurrent true db.versions doc2).2
          · intro i
            dsimp only
            rw [hsame hC]
            exact hContig i
          · intro i
            dsimp only
            rw [happ hC, versionsOf_append]
            dsimp only
            by_cases hi : doc2.id = i
            · rw [if_pos hi]
              obtain ⟨N, hN⟩ := hContig i
              have hmax : maxVersionNumber (versionsOf db.versions doc2.id) =
                  if N = 0 then none else some (N : Int) := by
                rw [hi, maxVersionNumber_eq_foldMaxInt, hN, foldMaxInt_range]
              refine ⟨N + 1, ?_⟩
              rw [List.map_append, hN, List.range'_concat, List.map_append]
              congr 1
              dsimp only [List.map]
              rw [hmax]
              by_cases hN0 : N = 0
              · rw [if_pos hN0]
                subst hN0
                decide
              · rw [if_neg hN0]
                dsimp only
                simp only [List.cons.injEq, and_true, Int.ofNat_eq_natCast]
                push_cast
                omega
            · rw [if_neg hi]
              rw [List.append_nil]
              exact hContig i
    | segmentDoc d2 m2 =>
      show VersionsContiguous (match segment_document db d2 m2 with
        | .ok db2 => db2
        | .error _ => db : DB)
      cases hres : segment_document db d2 m2 with
      | error e => exact hContig
      | ok db2 =>
        intro i
        dsimp only
        rw [(segment_document_docs hres).2]
        exact hContig i
    | patchSeg s2 q =>
      show VersionsContiguous (match patch_segment db s2 q with
        | .ok db2 => db2
        | .error _ => db : DB)
      cases hres : patch_segment db s2 q with
      | error e => exact hContig
      | ok db2 =>
        intro i
        dsimp only
        rw [(patch_segment_keeps_docs hres).2]
        exact hContig i

theorem C5_version_numbering_witness :
    (wDB.documents.find?
      (fun d => decide (d.id = 1 ∧ d.deletedAt = none)) = some wDoc) ∧
    (patch_document true wDB 1 ⟨some "doc".data, some wText⟩ = .ok wDBnoop) ∧
    ((some "doc".data).getD (resolveCurrent true wDB.versions wDoc).1 =
        (resolveCurrent true wDB.versions wDoc).1 ∧
      (some wText).getD (resolveCurrent true wDB.versions wDoc).2 =
        (resolveCurrent true wDB.versions wDoc).2) ∧
    wDBnoop.versions = wDB.versions := by
  refine ⟨by decide, by rfl, by decide, ?_⟩
  exact (C5_version_numbering wDB 1 ⟨some "doc".data, some wText⟩ wDoc
    (by decide)).1 wDBnoop (by rfl) (by decide)

/-- C6: the segmenters of the embedding are pure functions, so repeated calls
on the same input agree; and a second reconcile of the same `(document, mode)`
right after a first one stores auto rows that agree with the first round's on
every field except the database-assigned primary key: same order_index, mode,
title, content, start and end, in the same order. -/
theorem C6_reconcile_idempotent {db : DB} {docId : Nat} {mode : SegMode}
    {db1 db2 : DB}
    (hfresh : ∀ s ∈ db.segments, s.id < db.nextSegId)
    (h1 : segment_document db docId mode = .ok db1)
    (h2 : segment_document db1 docId mode = .ok db2) :
    (∀ cs : List Char, segment_qa cs = segment_qa cs ∧
      segment_paragraphs cs 2500 = segment_paragraphs cs 2500) ∧
    (autosOf db2 docId mode).map segTuple =
      (autosOf db1 docId mode).map segTuple := by
  refine ⟨fun cs => ⟨rfl, rfl⟩, ?_⟩
  cases hdoc : db.documents.find?
      (fun d => decide (d.id = docId ∧ d.deletedAt = none)) with
  | none =>
    unfold segment_document at h1
    rw [hdoc] at h1
    cases h1
  | some doc =>
    have hdocs1 : db1.documents = db.documents := (segment_document_docs h1).1
    have hdoc1 : db1.documents.find?
        (fun d => decide (d.id = docId ∧ d.deletedAt = none)) = some doc := by
      rw [hdocs1, hdoc]
    have hfresh1 : ∀ s ∈ db1.segments, s.id < db1.nextSegId :=
      segment_document_fresh hfresh h1
    rw [segment_document_autos hdoc hfresh h1,
      segment_document_autos hdoc1 hfresh1 h2]
    exact insertAutos_tuple_sid doc.text.length docId mode
      (chunksFor mode doc.text) db1.nextSegId db.nextSegId 0

theorem C6_reconcile_idempotent_witness :
    (∀ s ∈ wDB.segments, s.id < wDB.nextSegId) ∧
    (segment_document wDB 1 SegMode.qa = .ok wDB1) ∧
    (segment_document wDB1 1 SegMode.qa = .ok wDB2) ∧
    ((∀ cs : List Char, segment_qa cs = segment_qa cs ∧
        segment_paragraphs cs 2500 = segment_paragraphs cs 2500) ∧
      (autosOf wDB2 1 SegMode.qa).map segTuple =
        (autosOf wDB1 1 SegMode.qa).map segTuple) := by
  refine ⟨by decide, by rfl, by rfl, ?_⟩
  exact @C6_reconcile_idempotent wDB 1 SegMode.qa wDB1 wDB2
    (by decide) (by rfl) (by rfl)

/-! ## Helper lemmas: the id pool of a reconcile -/

theorem pool_ids_nodup {segs : List Segment} {nid : Nat} (L docId : Nat)
    (mode : SegMode) (chunks : List Chunk)
    (hnodup : (segs.map Segment.id).Nodup)
    (hfresh : ∀ s ∈ segs, s.id < nid) :
    ((segs.filter (fun s => !autoPred docId mode s) ++
        (insertAutos L docId mode chunks nid 0).1).map Segment.id).Nodup := by
  rw [List.map_append]
  refine List.Nodup.append ?_ (insertAutos_ids_nodup L docId mode chunks nid 0) ?_
  · exact hnodup.sublist ((List.filter_sublist segs).map Segment.id)
  · rw [List.disjoint_left]
    intro a ha hb
    obtain ⟨s, hs, hsid⟩ := List.mem_map.mp ha
    obtain ⟨t, ht, htid⟩ := List.mem_map.mp hb
    have hslt := hfresh s (List.mem_of_mem_filter hs)
    have htge := (insertAutos_id_range L docId mode chunks nid 0).2 t ht
    omega

/-- C3: a successful reconcile of `(document, mode)` on a store with
duplicate-free segment ids and a fresh id counter (i) replaces the auto rows
of the pair by exactly one fresh row per segmenter chunk, placed at
`order_index` 0..k-1 in chunk order; (ii) re-points each of the previously
loaded live manual rows — taken in their `(order_index, id)` order — to
`order_index` k, k+1, …, changing nothing else on those rows; and (iii)
leaves every other row (tombstoned manuals of the pair, rows of other
documents or modes) byte-for-byte unchanged. -/
theorem C3_reconcile_frame {db : DB} {docId : Nat} {mode : SegMode} {db' : DB}
    {doc : Document}
    (hdoc : db.documents.find?
      (fun d => decide (d.id = docId ∧ d.deletedAt = none)) = some doc)
    (hnodup : (db.segments.map Segment.id).Nodup)
    (hfresh : ∀ s ∈ db.segments, s.id < db.nextSegId)
    (hok : segment_document db docId mode = .ok db') :
    autosOf db' docId mode =
      (chunksFor mode doc.text).enum.map (fun pr =>
        mkAuto doc.text.length docId mode pr.2 pr.1 (db.nextSegId + pr.1)) ∧
    (∀ pr ∈ (sortSegs (db.segments.filter (manualAlive docId mode))).enum,
      db'.segments.find? (fun t => decide (t.id = pr.2.id)) =
        some { pr.2 with orderIndex :=
          (((chunksFor mode doc.text).length : Nat) : Int) + (pr.1 : Int) }) ∧
    db'.segments.filter (fun s => !autoPred docId mode s &&
        !decide (s.id ∈ (sortSegs (db.segments.filter
          (manualAlive docId mode))).map (fun t => t.id))) =
      db.segments.filter (fun s => !autoPred docId mode s &&
        !decide (s.id ∈ (sortSegs (db.segments.filter
          (manualAlive docId mode))).map (fun t => t.id))) := by
  obtain ⟨_, _, _, _, hsegs⟩ := segment_document_ok hdoc hok
  have hchne := chunksFor_strip_ne_nil mode doc.text
  obtain ⟨hspec, hsid, hord⟩ := insertAutos_nonempty_spec doc.text.length docId
    mode (chunksFor mode doc.text) db.nextSegId 0 hchne
  set chunks := chunksFor mode doc.text with hchunks
  set newSegs := (insertAutos doc.text.length docId mode
    chunks db.nextSegId 0).1 with hnew
  set msIds := (sortSegs (db.segments.filter (manualAlive docId mode))).map
    (fun s => s.id) with hms
  set base := ((insertAutos doc.text.length docId mode
    chunks db.nextSegId 0).2.2 : Int) with hbase
  set pool := db.segments.filter (fun s => !autoPred docId mode s) ++ newSegs
    with hpool
  have hbasek : base = ((chunks.length : Nat) : Int) := by
    rw [hbase, hord, Nat.zero_add]
  have hpoolnd : (pool.map Segment.id).Nodup :=
    pool_ids_nodup doc.text.length docId mode chunks hnodup hfresh
  have hmsnd : msIds.Nodup := by
    have hperm := sortSegs_perm (db.segments.filter (manualAlive docId mode))
    have hsub : ((db.segments.filter (manualAlive docId mode)).map
        (fun s => s.id)).Nodup :=
      hnodup.sublist ((List.filter_sublist db.segments).map Segment.id)
    exact ((hperm.map (fun s => s.id)).nodup_iff).mpr hsub
  refine ⟨?_, ?_, ?_⟩
  · rw [segment_document_autos hdoc hfresh hok, ← hchunks, ← hnew, hspec]
    refine List.map_congr_left ?_
    intro pr _
    rw [Nat.zero_add]
  · intro pr hpr
    have hget : (sortSegs (db.segments.filter (manualAlive docId mode)))[pr.1]? =
        some pr.2 := by
      rw [← List.mem_enum_iff_getElem?]
      exact hpr
    have hgid : msIds[pr.1]? = some pr.2.id := by
      rw [hms, List.getElem?_map, hget]
      rfl
    have hsmem : pr.2 ∈ sortSegs (db.segments.filter (manualAlive docId mode)) :=
      List.mem_iff_getElem?.mpr ⟨pr.1, hget⟩
    have hsfil : pr.2 ∈ db.segments.filter (manualAlive docId mode) :=
      (sortSegs_perm _).mem_iff.mp hsmem
    have hman : manualAlive docId mode pr.2 = true := List.of_mem_filter hsfil
    have hnotauto : autoPred docId mode pr.2 = false := manualAlive_not_auto hman
    have hpmem : pr.2 ∈ pool := by
      refine List.mem_append_left _ (List.mem_filter.mpr
        ⟨List.mem_of_mem_filter hsfil, ?_⟩)
      rw [hnotauto]
      rfl
    rw [hsegs]
    show (List.map (reindexOne msIds base) pool).find?
        (fun t => decide (t.id = pr.2.id)) = _
    rw [find?_map_id_unique pool hpoolnd (reindexOne msIds base)
      (fun t => (reindexOne_fields msIds base t).1) pr.2 hpmem]
    rw [reindexOne_at_getElem hmsnd base hgid, hbasek]
  · rw [hsegs]
    show (List.map (reindexOne msIds base) pool).filter
        (fun s => !autoPred docId mode s && !decide (s.id ∈ msIds)) = _
    rw [List.filter_map]
    have hcomp : pool.filter ((fun s => !autoPred docId mode s &&
        !decide (s.id ∈ msIds)) ∘ reindexOne msIds base) =
        pool.filter (fun s => !autoPred docId mode s &&
          !decide (s.id ∈ msIds)) := by
      refine List.filter_congr ?_
      intro s _
      obtain ⟨hid, _⟩ := reindexOne_fields msIds base s
      simp only [Function.comp]
      rw [autoPred_reindexOne, hid]
    rw [hcomp, hpool, List.filter_append]
    have hnew0 : newSegs.filter (fun s => !autoPred docId mode s &&
        !decide (s.id ∈ msIds)) = [] := by
      rw [List.filter_eq_nil_iff]
      intro s hs
      obtain ⟨ch, _, o, i, heq, _⟩ := insertAutos_mem_spec doc.text.length docId
        mode chunks db.nextSegId 0 s hs
      rw [heq, autoPred_mkAuto]
      simp
    rw [hnew0, List.append_nil, List.filter_filter]
    have hboth : db.segments.filter (fun a =>
        (!autoPred docId mode a && !decide (a.id ∈ msIds)) &&
          !autoPred docId mode a) =
        db.segments.filter (fun s => !autoPred docId mode s &&
          !decide (s.id ∈ msIds)) := by
      refine List.filter_congr ?_
      intro s _
      cases autoPred docId mode s <;> simp
    rw [hboth]
    refine (List.map_congr_left ?_).trans (List.map_id _)
    intro s hs
    have hP := List.of_mem_filter hs
    have hnm : s.id ∉ msIds := by
      intro hmem
      rw [Bool.and_eq_true] at hP
      rw [decide_eq_true hmem] at hP
      simp at hP
    show reindexOne msIds base s = id s
    exact reindexOne_not_mem msIds base s hnm

theorem C3_reconcile_frame_witness :
    (wDB.documents.find?
      (fun d => decide (d.id = 1 ∧ d.deletedAt = none)) = some wDoc) ∧
    ((wDB.segments.map Segment.id).Nodup) ∧
    (∀ s ∈ wDB.segments, s.id < wDB.nextSegId) ∧
    (segment_document wDB 1 SegMode.qa = .ok wDB1) ∧
    (autosOf wDB1 1 SegMode.qa =
      (chunksFor SegMode.qa wDoc.text).enum.map (fun pr =>
        mkAuto wDoc.text.length 1 SegMode.qa pr.2 pr.1 (wDB.nextSegId + pr.1)) ∧
    (∀ pr ∈ (sortSegs (wDB.segments.filter (manualAlive 1 SegMode.qa))).enum,
      wDB1.segments.find? (fun t => decide (t.id = pr.2.id)) =
        some { pr.2 with orderIndex :=
          (((chunksFor SegMode.qa wDoc.text).length : Nat) : Int) + (pr.1 : Int) }) ∧
    wDB1.segments.filter (fun s => !autoPred 1 SegMode.qa s &&
        !decide (s.id ∈ (sortSegs (wDB.segments.filter
          (manualAlive 1 SegMode.qa))).map (fun t => t.id))) =
      wDB.segments.filter (fun s => !autoPred 1 SegMode.qa s &&
        !decide (s.id ∈ (sortSegs (wDB.segments.filter
          (manualAlive 1 SegMode.qa))).map (fun t => t.id)))) := by
  refine ⟨by decide, by decide, by decide, by rfl, ?_⟩
  exact @C3_reconcile_frame wDB 1 SegMode.qa wDB1 wDoc
    (by decide) (by decide) (by decide) (by rfl)

end AiOrganizer
